import Mathlib

/-
Verification development for the rustree tree-surgery engine and
transfer-time sampler.

Shallow embedding conventions:
* `f64` is modelled by `ℚ` (exact arithmetic; all claims checked here are
  order/arithmetic facts that do not depend on rounding).
* Rust `usize` indices are `Nat`.
* A Rust function that can panic (`expect`, `unwrap`, out-of-bounds index,
  `usize` underflow) is modelled as an `Option`-returning function, `none`
  meaning the panic.
* `Vec<FlatNode>` is `List FlatNode`; in-place mutation becomes functional
  update via `List.set`.
-/

set_option synthInstance.maxSize 5000

namespace Rustree

/-- Embedding of `FlatNode` (src/node.rs): name, optional child indices,
optional parent index, optional depth, branch length. -/
structure FlatNode where
  name : String
  left_child : Option Nat
  right_child : Option Nat
  parent : Option Nat
  depth : Option ℚ
  length : ℚ
deriving DecidableEq, Repr

instance : Inhabited FlatNode := ⟨⟨"", none, none, none, none, 0⟩⟩

/-- Embedding of `FlatTree` (src/node.rs): a vector of flat nodes plus the
root index. -/
structure FlatTree where
  nodes : List FlatNode
  root : Nat
deriving DecidableEq, Repr

/-- Read the node stored at index `i` (`flat_tree[i]`); out-of-bounds reads
give the default node (claims only concern in-bounds indices). -/
def FlatTree.get (t : FlatTree) (i : Nat) : FlatNode := t.nodes.getD i default

/-- Functional update of the node at index `i`; on out-of-bounds `i` this is
the identity (the Rust code never writes out of bounds in the cases the
claims cover). -/
def FlatTree.modifyAt (t : FlatTree) (i : Nat) (f : FlatNode → FlatNode) : FlatTree :=
  { t with nodes := t.nodes.set i (f (t.get i)) }

/-- `flat_tree[i].parent = p`. -/
def FlatTree.setParent (t : FlatTree) (i : Nat) (p : Option Nat) : FlatTree :=
  t.modifyAt i fun nd => { nd with parent := p }

/-- `flat_tree[i].left_child = c`. -/
def FlatTree.setLeft (t : FlatTree) (i : Nat) (c : Option Nat) : FlatTree :=
  t.modifyAt i fun nd => { nd with left_child := c }

/-- `flat_tree[i].right_child = c`. -/
def FlatTree.setRight (t : FlatTree) (i : Nat) (c : Option Nat) : FlatTree :=
  t.modifyAt i fun nd => { nd with right_child := c }

/-- `flat_tree[i].depth = d`. -/
def FlatTree.setDepth (t : FlatTree) (i : Nat) (d : Option ℚ) : FlatTree :=
  t.modifyAt i fun nd => { nd with depth := d }

/-- `flat_tree.root = r`. -/
def FlatTree.setRoot (t : FlatTree) (r : Nat) : FlatTree := { t with root := r }

def parentOf (t : FlatTree) (i : Nat) : Option Nat := (t.get i).parent

def leftOf (t : FlatTree) (i : Nat) : Option Nat := (t.get i).left_child

def rightOf (t : FlatTree) (i : Nat) : Option Nat := (t.get i).right_child

def depthOf (t : FlatTree) (i : Nat) : Option ℚ := (t.get i).depth

def lengthOf (t : FlatTree) (i : Nat) : ℚ := (t.get i).length

/-- The depth value of node `i` (0 when unassigned). -/
def dval (t : FlatTree) (i : Nat) : ℚ := (depthOf t i).getD 0

theorem getD_set {α : Type} (l : List α) (i j : Nat) (a d : α) :
    (l.set i a).getD j d = if i = j ∧ i < l.length then a else l.getD j d := by
  rw [List.getD_eq_getElem?_getD, List.getD_eq_getElem?_getD, List.getElem?_set]
  by_cases h1 : i = j
  · subst h1
    by_cases h2 : i < l.length
    · simp [h2]
    · simp [h2, List.getElem?_eq_none (Nat.le_of_not_lt h2)]
  · simp [h1]

theorem get_modifyAt (t : FlatTree) (i : Nat) (f : FlatNode → FlatNode) (j : Nat) :
    (t.modifyAt i f).get j = if j = i ∧ i < t.nodes.length then f (t.get i) else t.get j := by
  unfold FlatTree.modifyAt FlatTree.get
  simp only
  rw [getD_set]
  by_cases h : i = j ∧ i < t.nodes.length
  · rw [if_pos h, if_pos ⟨h.1.symm, h.2⟩]
  · rw [if_neg h, if_neg fun hc => h ⟨hc.1.symm, hc.2⟩]

@[simp] theorem length_modifyAt (t : FlatTree) (i : Nat) (f : FlatNode → FlatNode) :
    (t.modifyAt i f).nodes.length = t.nodes.length := by
  unfold FlatTree.modifyAt; simp

@[simp] theorem root_modifyAt (t : FlatTree) (i : Nat) (f : FlatNode → FlatNode) :
    (t.modifyAt i f).root = t.root := rfl

@[simp] theorem root_setRoot (t : FlatTree) (r : Nat) : (t.setRoot r).root = r := rfl

@[simp] theorem get_setRoot (t : FlatTree) (r i : Nat) : (t.setRoot r).get i = t.get i := rfl

@[simp] theorem nodes_setRoot (t : FlatTree) (r : Nat) : (t.setRoot r).nodes = t.nodes := rfl

def nameOf (t : FlatTree) (i : Nat) : String := (t.get i).name

@[simp] theorem parentOf_setParent (t : FlatTree) (i : Nat) (p : Option Nat) (j : Nat) :
    parentOf (t.setParent i p) j = if j = i ∧ i < t.nodes.length then p else parentOf t j := by
  unfold parentOf FlatTree.setParent
  rw [get_modifyAt]
  by_cases h : j = i ∧ i < t.nodes.length
  · rw [if_pos h, if_pos h]
  · rw [if_neg h, if_neg h]

@[simp] theorem leftOf_setParent (t : FlatTree) (i : Nat) (p : Option Nat) (j : Nat) :
    leftOf (t.setParent i p) j = leftOf t j := by
  unfold leftOf FlatTree.setParent
  rw [get_modifyAt]
  by_cases h : j = i ∧ i < t.nodes.length
  · rw [if_pos h, h.1]
  · rw [if_neg h]

@[simp] theorem rightOf_setParent (t : FlatTree) (i : Nat) (p : Option Nat) (j : Nat) :
    rightOf (t.setParent i p) j = rightOf t j := by
  unfold rightOf FlatTree.setParent
  rw [get_modifyAt]
  by_cases h : j = i ∧ i < t.nodes.length
  · rw [if_pos h, h.1]
  · rw [if_neg h]

@[simp] theorem depthOf_setParent (t : FlatTree) (i : Nat) (p : Option Nat) (j : Nat) :
    depthOf (t.setParent i p) j = depthOf t j := by
  unfold depthOf FlatTree.setParent
  rw [get_modifyAt]
  by_cases h : j = i ∧ i < t.nodes.length
  · rw [if_pos h, h.1]
  · rw [if_neg h]

@[simp] theorem lengthOf_setParent (t : FlatTree) (i : Nat) (p : Option Nat) (j : Nat) :
    lengthOf (t.setParent i p) j = lengthOf t j := by
  unfold lengthOf FlatTree.setParent
  rw [get_modifyAt]
  by_cases h : j = i ∧ i < t.nodes.length
  · rw [if_pos h, h.1]
  · rw [if_neg h]

@[simp] theorem nameOf_setParent (t : FlatTree) (i : Nat) (p : Option Nat) (j : Nat) :
    nameOf (t.setParent i p) j = nameOf t j := by
  unfold nameOf FlatTree.setParent
  rw [get_modifyAt]
  by_cases h : j = i ∧ i < t.nodes.length
  · rw [if_pos h, h.1]
  · rw [if_neg h]

@[simp] theorem length_setParent (t : FlatTree) (i : Nat) (p : Option Nat) :
    (t.setParent i p).nodes.length = t.nodes.length := length_modifyAt t i _

@[simp] theorem root_setParent (t : FlatTree) (i : Nat) (p : Option Nat) :
    (t.setParent i p).root = t.root := rfl

@[simp] theorem parentOf_setLeft (t : FlatTree) (i : Nat) (c : Option Nat) (j : Nat) :
    parentOf (t.setLeft i c) j = parentOf t j := by
  unfold parentOf FlatTree.setLeft
  rw [get_modifyAt]
  by_cases h : j = i ∧ i < t.nodes.length
  · rw [if_pos h, h.1]
  · rw [if_neg h]

@[simp] theorem leftOf_setLeft (t : FlatTree) (i : Nat) (c : Option Nat) (j : Nat) :
    leftOf (t.setLeft i c) j = if j = i ∧ i < t.nodes.length then c else leftOf t j := by
  unfold leftOf FlatTree.setLeft
  rw [get_modifyAt]
  by_cases h : j = i ∧ i < t.nodes.length
  · rw [if_pos h, if_pos h]
  · rw [if_neg h, if_neg h]

@[simp] theorem rightOf_setLeft (t : FlatTree) (i : Nat) (c : Option Nat) (j : Nat) :
    rightOf (t.setLeft i c) j = rightOf t j := by
  unfold rightOf FlatTree.setLeft
  rw [get_modifyAt]
  by_cases h : j = i ∧ i < t.nodes.length
  · rw [if_pos h, h.1]
  · rw [if_neg h]

@[simp] theorem depthOf_setLeft (t : FlatTree) (i : Nat) (c : Option Nat) (j : Nat) :
    depthOf (t.setLeft i c) j = depthOf t j := by
  unfold depthOf FlatTree.setLeft
  rw [get_modifyAt]
  by_cases h : j = i ∧ i < t.nodes.length
  · rw [if_pos h, h.1]
  · rw [if_neg h]

@[simp] theorem lengthOf_setLeft (t : FlatTree) (i : Nat) (c : Option Nat) (j : Nat) :
    lengthOf (t.setLeft i c) j = lengthOf t j := by
  unfold lengthOf FlatTree.setLeft
  rw [get_modifyAt]
  by_cases h : j = i ∧ i < t.nodes.length
  · rw [if_pos h, h.1]
  · rw [if_neg h]

@[simp] theorem nameOf_setLeft (t : FlatTree) (i : Nat) (c : Option Nat) (j : Nat) :
    nameOf (t.setLeft i c) j = nameOf t j := by
  unfold nameOf FlatTree.setLeft
  rw [get_modifyAt]
  by_cases h : j = i ∧ i < t.nodes.length
  · rw [if_pos h, h.1]
  · rw [if_neg h]

@[simp] theorem length_setLeft (t : FlatTree) (i : Nat) (c : Option Nat) :
    (t.setLeft i c).nodes.length = t.nodes.length := length_modifyAt t i _

@[simp] theorem root_setLeft (t : FlatTree) (i : Nat) (c : Option Nat) :
    (t.setLeft i c).root = t.root := rfl

@[simp] theorem parentOf_setRight (t : FlatTree) (i : Nat) (c : Option Nat) (j : Nat) :
    parentOf (t.setRight i c) j = parentOf t j := by
  unfold parentOf FlatTree.setRight
  rw [get_modifyAt]
  by_cases h : j = i ∧ i < t.nodes.length
  · rw [if_pos h, h.1]
  · rw [if_neg h]

@[simp] theorem leftOf_setRight (t : FlatTree) (i : Nat) (c : Option Nat) (j : Nat) :
    leftOf (t.setRight i c) j = leftOf t j := by
  unfold leftOf FlatTree.setRight
  rw [get_modifyAt]
  by_cases h : j = i ∧ i < t.nodes.length
  · rw [if_pos h, h.1]
  · rw [if_neg h]

@[simp] theorem rightOf_setRight (t : FlatTree) (i : Nat) (c : Option Nat) (j : Nat) :
    rightOf (t.setRight i c) j = if j = i ∧ i < t.nodes.length then c else rightOf t j := by
  unfold rightOf FlatTree.setRight
  rw [get_modifyAt]
  by_cases h : j = i ∧ i < t.nodes.length
  · rw [if_pos h, if_pos h]
  · rw [if_neg h, if_neg h]

@[simp] theorem depthOf_setRight (t : FlatTree) (i : Nat) (c : Option Nat) (j : Nat) :
    depthOf (t.setRight i c) j = depthOf t j := by
  unfold depthOf FlatTree.setRight
  rw [get_modifyAt]
  by_cases h : j = i ∧ i < t.nodes.length
  · rw [if_pos h, h.1]
  · rw [if_neg h]

@[simp] theorem lengthOf_setRight (t : FlatTree) (i : Nat) (c : Option Nat) (j : Nat) :
    lengthOf (t.setRight i c) j = lengthOf t j := by
  unfold lengthOf FlatTree.setRight
  rw [get_modifyAt]
  by_cases h : j = i ∧ i < t.nodes.length
  · rw [if_pos h, h.1]
  · rw [if_neg h]

@[simp] theorem nameOf_setRight (t : FlatTree) (i : Nat) (c : Option Nat) (j : Nat) :
    nameOf (t.setRight i c) j = nameOf t j := by
  unfold nameOf FlatTree.setRight
  rw [get_modifyAt]
  by_cases h : j = i ∧ i < t.nodes.length
  · rw [if_pos h, h.1]
  · rw [if_neg h]

@[simp] theorem length_setRight (t : FlatTree) (i : Nat) (c : Option Nat) :
    (t.setRight i c).nodes.length = t.nodes.length := length_modifyAt t i _

@[simp] theorem root_setRight (t : FlatTree) (i : Nat) (c : Option Nat) :
    (t.setRight i c).root = t.root := rfl

@[simp] theorem parentOf_setDepth (t : FlatTree) (i : Nat) (d : Option ℚ) (j : Nat) :
    parentOf (t.setDepth i d) j = parentOf t j := by
  unfold parentOf FlatTree.setDepth
  rw [get_modifyAt]
  by_cases h : j = i ∧ i < t.nodes.length
  · rw [if_pos h, h.1]
  · rw [if_neg h]

@[simp] theorem leftOf_setDepth (t : FlatTree) (i : Nat) (d : Option ℚ) (j : Nat) :
    leftOf (t.setDepth i d) j = leftOf t j := by
  unfold leftOf FlatTree.setDepth
  rw [get_modifyAt]
  by_cases h : j = i ∧ i < t.nodes.length
  · rw [if_pos h, h.1]
  · rw [if_neg h]

@[simp] theorem rightOf_setDepth (t : FlatTree) (i : Nat) (d : Option ℚ) (j : Nat) :
    rightOf (t.setDepth i d) j = rightOf t j := by
  unfold rightOf FlatTree.setDepth
  rw [get_modifyAt]
  by_cases h : j = i ∧ i < t.nodes.length
  · rw [if_pos h, h.1]
  · rw [if_neg h]

@[simp] theorem depthOf_setDepth (t : FlatTree) (i : Nat) (d : Option ℚ) (j : Nat) :
    depthOf (t.setDepth i d) j = if j = i ∧ i < t.nodes.length then d else depthOf t j := by
  unfold depthOf FlatTree.setDepth
  rw [get_modifyAt]
  by_cases h : j = i ∧ i < t.nodes.length
  · rw [if_pos h, if_pos h]
  · rw [if_neg h, if_neg h]

@[simp] theorem lengthOf_setDepth (t : FlatTree) (i : Nat) (d : Option ℚ) (j : Nat) :
    lengthOf (t.setDepth i d) j = lengthOf t j := by
  unfold lengthOf FlatTree.setDepth
  rw [get_modifyAt]
  by_cases h : j = i ∧ i < t.nodes.length
  · rw [if_pos h, h.1]
  · rw [if_neg h]

@[simp] theorem nameOf_setDepth (t : FlatTree) (i : Nat) (d : Option ℚ) (j : Nat) :
    nameOf (t.setDepth i d) j = nameOf t j := by
  unfold nameOf FlatTree.setDepth
  rw [get_modifyAt]
  by_cases h : j = i ∧ i < t.nodes.length
  · rw [if_pos h, h.1]
  · rw [if_neg h]

@[simp] theorem length_setDepth (t : FlatTree) (i : Nat) (d : Option ℚ) :
    (t.setDepth i d).nodes.length = t.nodes.length := length_modifyAt t i _

@[simp] theorem root_setDepth (t : FlatTree) (i : Nat) (d : Option ℚ) :
    (t.setDepth i d).root = t.root := rfl

@[simp] theorem parentOf_setRoot (t : FlatTree) (rt : Nat) (j : Nat) :
    parentOf (t.setRoot rt) j = parentOf t j := rfl

@[simp] theorem leftOf_setRoot (t : FlatTree) (rt : Nat) (j : Nat) :
    leftOf (t.setRoot rt) j = leftOf t j := rfl

@[simp] theorem rightOf_setRoot (t : FlatTree) (rt : Nat) (j : Nat) :
    rightOf (t.setRoot rt) j = rightOf t j := rfl

@[simp] theorem depthOf_setRoot (t : FlatTree) (rt : Nat) (j : Nat) :
    depthOf (t.setRoot rt) j = depthOf t j := rfl

@[simp] theorem lengthOf_setRoot (t : FlatTree) (rt : Nat) (j : Nat) :
    lengthOf (t.setRoot rt) j = lengthOf t j := rfl

@[simp] theorem nameOf_setRoot (t : FlatTree) (rt : Nat) (j : Nat) :
    nameOf (t.setRoot rt) j = nameOf t j := rfl

@[simp] theorem length_setRoot (t : FlatTree) (rt : Nat) :
    (t.setRoot rt).nodes.length = t.nodes.length := rfl

/-- The parent-walk used to state acyclicity: walking `parent` pointers from
`i` reaches the root within `fuel` steps. -/
def reachesRoot (t : FlatTree) : Nat → Nat → Bool
  | 0, _ => false
  | fuel + 1, i =>
    if i = t.root then true
    else
      match parentOf t i with
      | none => false
      | some p => reachesRoot t fuel p

/-- Structural well-formedness of a flat tree (the invariants of spec §3:
binary rooted, reciprocity, acyclicity, index validity). -/
def WF (t : FlatTree) : Prop :=
  t.root < t.nodes.length ∧
  parentOf t t.root = none ∧
  (∀ i, i < t.nodes.length → i ≠ t.root → (parentOf t i).isSome = true) ∧
  (∀ i, i < t.nodes.length → ((parentOf t i).all fun p => p < t.nodes.length) = true) ∧
  (∀ i, i < t.nodes.length → ((leftOf t i).all fun c => c < t.nodes.length) = true ∧
    ((rightOf t i).all fun c => c < t.nodes.length) = true) ∧
  (∀ i, i < t.nodes.length → ∀ c, c < t.nodes.length →
    (leftOf t i = some c ∨ rightOf t i = some c) → parentOf t c = some i) ∧
  (∀ i, i < t.nodes.length → ∀ p, p < t.nodes.length → parentOf t i = some p →
    leftOf t p = some i ∨ rightOf t p = some i) ∧
  (∀ i, i < t.nodes.length → (leftOf t i).isSome = (rightOf t i).isSome) ∧
  (∀ i, i < t.nodes.length → (leftOf t i).isSome = true → leftOf t i ≠ rightOf t i) ∧
  (∀ i, i < t.nodes.length → reachesRoot t t.nodes.length i = true)

/-- Ultrametric consistency and non-negative lengths (spec §3): for every
non-root node, `depth(c) = depth(parent(c)) + length(c)`, and lengths are
non-negative. -/
def TimeWF (t : FlatTree) : Prop :=
  (∀ i, i < t.nodes.length → 0 ≤ lengthOf t i) ∧
  (∀ i, i < t.nodes.length → ∀ p, p < t.nodes.length → parentOf t i = some p →
    dval t i = dval t p + lengthOf t i)

/-- All nodes of the tree carry an assigned depth. -/
def AllDepths (t : FlatTree) : Prop :=
  ∀ i, i < t.nodes.length → (depthOf t i).isSome = true

/-- Loop body of `FlatTree::is_ancestor` (src/node.rs): walk parents from the
current node; return `true` on reaching `potential`, `false` on the malformed
guards.  The Rust loop has no fuel; on acyclic trees it terminates within
`nodes.len()` steps, which is the fuel callers pass. -/
def isAncestorLoop (t : FlatTree) (potential target : Nat) : Nat → Option Nat → Bool
  | _, none => false
  | 0, some _ => false
  | fuel + 1, some cur =>
    if cur = potential then true
    else if cur = t.root ∧ (parentOf t t.root).isSome then false
    else if cur = target then false
    else isAncestorLoop t potential target fuel (parentOf t cur)

/-- Embedding of `FlatTree::is_ancestor` (src/node.rs lines 305-334). -/
def is_ancestor (t : FlatTree) (potential_ancestor_idx node_idx : Nat) : Bool :=
  if t.nodes.length ≤ potential_ancestor_idx ∨ t.nodes.length ≤ node_idx then false
  else if potential_ancestor_idx = node_idx then false
  else isAncestorLoop t potential_ancestor_idx node_idx t.nodes.length (parentOf t node_idx)

/-- Embedding of `remove_node` (src/sampling.rs lines 10-46): splice out leaf
`index` and its parent; `none` models the `expect`/`unwrap` panics. -/
def remove_node (t : FlatTree) (index : Nat) : Option FlatTree := do
  let parent_index ← parentOf t index
  let l ← leftOf t parent_index
  let sister_index ← if l = index then rightOf t parent_index else pure l
  let grandparent_index_opt := parentOf t parent_index
  let t1 := t.setParent index none
  let t2 := t1.setParent sister_index grandparent_index_opt
  match grandparent_index_opt with
  | some grandparent_index => do
      let gl ← leftOf t2 grandparent_index
      pure (if gl = parent_index
            then t2.setLeft grandparent_index (some sister_index)
            else t2.setRight grandparent_index (some sister_index))
  | none =>
      pure ((t2.setParent sister_index none).setRoot sister_index)

/-- Embedding of the dated `spr` (src/surgery.rs lines 5-82, identical to
src/sampling.rs lines 48-125): `none` models the `expect`/`unwrap` panics;
each pointer write follows the source statement order, re-reading child
slots exactly where the source does. -/
def spr (t : FlatTree) (donor recipient : Nat) (time : ℚ) : Option FlatTree := do
  let donor_parent ← parentOf t donor
  let recipient_parent ← parentOf t recipient
  let l ← leftOf t recipient_parent
  let recipient_sibling ← if l = recipient then rightOf t recipient_parent else pure l
  let recipient_grandparent_opt := parentOf t recipient_parent
  if donor_parent = recipient_parent then
    pure (t.setDepth recipient_parent (some time))
  else do
    let recipient_has_grandparent := (parentOf t recipient_parent).isSome
    let t1 := t.setParent recipient_parent (some donor_parent)
    let l1 ← leftOf t1 recipient_parent
    let t2 := if l1 = recipient
              then t1.setLeft recipient_parent (some donor)
              else t1.setRight recipient_parent (some donor)
    let t3 := t2.setDepth recipient_parent (some time)
    let t4 ← if recipient_has_grandparent then do
        let g ← recipient_grandparent_opt
        let gl ← leftOf t3 g
        let t4a := if gl = recipient_parent
                   then t3.setLeft g (some recipient_sibling)
                   else t3.setRight g (some recipient_sibling)
        pure (t4a.setParent recipient_sibling recipient_grandparent_opt)
      else
        pure ((t3.setParent recipient_sibling none).setRoot recipient_sibling)
    let dl ← leftOf t4 donor_parent
    let t5 := if dl = donor
              then t4.setLeft donor_parent (some recipient_parent)
              else t4.setRight donor_parent (some recipient_parent)
    pure (t5.setParent donor (some recipient_parent))

/-- Embedding of `SprError` (src/node.rs lines 43-50). -/
inductive SprError where
  | NodeNotFound : String → SprError
  | InvalidDonor : String → SprError
  | InvalidRecipient : String → SprError
  | InvalidMove : String → SprError
  | TreeError : String → SprError
deriving DecidableEq, Repr

/-- Steps 3-5 of `FlatTree::detach` (src/node.rs lines 378-425), after the
sibling and its side have been determined. -/
def detachGo (t : FlatTree) (parent_idx sibling_idx : Nat)
    (n_was_left : Bool) : Except SprError (FlatTree × Nat) := do
  let grandparent_idx_opt := parentOf t parent_idx
  let t1 ← match grandparent_idx_opt with
    | some gp_idx =>
        if leftOf t gp_idx = some parent_idx then
          pure ((t.setLeft gp_idx (some sibling_idx)).setParent sibling_idx (some gp_idx))
        else if rightOf t gp_idx = some parent_idx then
          pure ((t.setRight gp_idx (some sibling_idx)).setParent sibling_idx (some gp_idx))
        else
          throw (SprError.TreeError "detach consistency error: grandparent does not list parent as a child")
    | none =>
        pure ((t.setRoot sibling_idx).setParent sibling_idx none)
  let t2 := t1.setParent parent_idx none
  let t3 := if n_was_left then t2.setRight parent_idx none else t2.setLeft parent_idx none
  pure (t3, parent_idx)

/-- Embedding of `FlatTree::detach` (src/node.rs lines 340-425): detach the
subtree rooted at `n` together with its parent, promoting the sibling;
returns the parent index. -/
def detach (t : FlatTree) (n : Nat) : Except SprError (FlatTree × Nat) :=
  match parentOf t n with
  | none => throw (SprError.TreeError "detach consistency error: non-root node has no parent")
  | some parent_idx =>
    match leftOf t parent_idx, rightOf t parent_idx with
    | some left_idx, some right_idx =>
        if left_idx = n then detachGo t parent_idx right_idx true
        else if right_idx = n then detachGo t parent_idx left_idx false
        else throw (SprError.TreeError "detach consistency error: node is not a child of its claimed parent")
    | some left_idx, none =>
        if left_idx = n then throw (SprError.TreeError "detach error: parent of node is missing its right child")
        else throw (SprError.TreeError "detach consistency error: node is not a child of its claimed parent")
    | none, some right_idx =>
        if right_idx = n then throw (SprError.TreeError "detach error: parent of node is missing its left child")
        else throw (SprError.TreeError "detach consistency error: node is not a child of its claimed parent")
    | none, none =>
        throw (SprError.TreeError "detach consistency error: node is not a child of its claimed parent")

/-- Step 4-5 of `FlatTree::attach` (src/node.rs lines 484-519): put the
target into the free child slot of the reused parent, then point the target
at it. -/
def attachStep4 (t : FlatTree) (detached_root_idx target_node_idx original_donor_n_idx : Nat) :
    Except SprError FlatTree :=
  match leftOf t detached_root_idx, rightOf t detached_root_idx with
  | some n_idx, none =>
      if n_idx = original_donor_n_idx then
        pure ((t.setRight detached_root_idx (some target_node_idx)).setParent target_node_idx (some detached_root_idx))
      else
        throw (SprError.TreeError "attach consistency error: child structure changed unexpectedly")
  | none, some n_idx =>
      if n_idx = original_donor_n_idx then
        pure ((t.setLeft detached_root_idx (some target_node_idx)).setParent target_node_idx (some detached_root_idx))
      else
        throw (SprError.TreeError "attach consistency error: child structure changed unexpectedly")
  | some _, some _ =>
      throw (SprError.TreeError "attach consistency error: the reused parent has two children before linking the target")
  | none, none =>
      throw (SprError.TreeError "attach consistency error: the reused parent lost its child before linking the target")

/-- Embedding of `FlatTree::attach` (src/node.rs lines 430-520). -/
def attach (t : FlatTree) (detached_root_idx target_node_idx : Nat) : Except SprError FlatTree := do
  if t.nodes.length ≤ detached_root_idx then
    throw (SprError.InvalidDonor "detached root index out of bounds")
  else if (parentOf t detached_root_idx).isSome then
    throw (SprError.TreeError "attach error: node to attach is not detached")
  else do
    let original_donor_n_idx ← match leftOf t detached_root_idx, rightOf t detached_root_idx with
      | some n_idx, none => pure n_idx
      | none, some n_idx => pure n_idx
      | none, none => throw (SprError.TreeError "attach error: detached node has no children")
      | some _, some _ => throw (SprError.TreeError "attach error: detached node should only have one child")
    if t.nodes.length ≤ target_node_idx then
      throw (SprError.InvalidRecipient "target node index out of bounds")
    else do
      let t1 ← match parentOf t target_node_idx with
        | some rp_idx =>
            if leftOf t rp_idx = some target_node_idx then
              pure ((t.setLeft rp_idx (some detached_root_idx)).setParent detached_root_idx (some rp_idx))
            else if rightOf t rp_idx = some target_node_idx then
              pure ((t.setRight rp_idx (some detached_root_idx)).setParent detached_root_idx (some rp_idx))
            else
              throw (SprError.TreeError "attach consistency error: recipient's parent does not list recipient as child")
        | none =>
            if target_node_idx ≠ t.root then
              throw (SprError.TreeError "attach consistency error: target node has no parent but was not the tree root")
            else
              pure ((t.setRoot detached_root_idx).setParent detached_root_idx none)
      attachStep4 t1 detached_root_idx target_node_idx original_donor_n_idx

/-- Embedding of `FlatTree::spr_topology` (src/node.rs lines 531-599). -/
def spr_topology (t : FlatTree) (moving_node_index recipient_idx : Nat) : Except SprError FlatTree :=
  if t.nodes.length ≤ moving_node_index then
    throw (SprError.InvalidDonor "donor index out of bounds")
  else if t.nodes.length ≤ recipient_idx then
    throw (SprError.InvalidRecipient "recipient index out of bounds")
  else if moving_node_index = t.root then
    throw (SprError.InvalidDonor "donor cannot be the root node for this SPR implementation")
  else if moving_node_index = recipient_idx then
    throw (SprError.InvalidMove "donor and recipient cannot be the same node")
  else
    match parentOf t moving_node_index with
    | none => throw (SprError.TreeError "SPR consistency error: non-root donor node has no parent")
    | some moving_node_parent_index =>
      if moving_node_parent_index = recipient_idx then
        throw (SprError.InvalidMove "recipient node cannot be the parent of the moving node")
      else if is_ancestor t moving_node_index recipient_idx then
        throw (SprError.InvalidMove "moving node cannot be an ancestor of the recipient node")
      else if (leftOf t moving_node_parent_index = some moving_node_index ∧
               rightOf t moving_node_parent_index = some recipient_idx) ∨
              (rightOf t moving_node_parent_index = some moving_node_index ∧
               leftOf t moving_node_parent_index = some recipient_idx) then
        pure t
      else do
        let (t', p) ← detach t moving_node_index
        attach t' p recipient_idx

/-- Concrete 5-node tree `((A,B)P,C)R` in pre-order flat layout, with
ultrametric depths: used as a witness/counterexample input. -/
def sampleTree5 : FlatTree :=
  { nodes :=
      [ ⟨"R", some 1, some 4, none, some 0, 0⟩
      , ⟨"P", some 2, some 3, some 0, some 1, 1⟩
      , ⟨"A", none, none, some 1, some 2, 1⟩
      , ⟨"B", none, none, some 1, some 2, 1⟩
      , ⟨"C", none, none, some 0, some 2, 2⟩ ]
  , root := 0 }

/-- Concrete 7-node tree `((D,S1)P1,(C,S2)P2)R` in pre-order flat layout,
with ultrametric depths: used as a witness/counterexample input. -/
def sampleTree7 : FlatTree :=
  { nodes :=
      [ ⟨"R", some 1, some 4, none, some 0, 0⟩
      , ⟨"P1", some 2, some 3, some 0, some 1, 1⟩
      , ⟨"D", none, none, some 1, some 2, 1⟩
      , ⟨"S1", none, none, some 1, some 2, 1⟩
      , ⟨"P2", some 5, some 6, some 0, some 1, 1⟩
      , ⟨"C", none, none, some 4, some 2, 1⟩
      , ⟨"S2", none, none, some 4, some 2, 1⟩ ]
  , root := 0 }

instance WF.instDecidable (t : FlatTree) : Decidable (WF t) := by
  unfold WF; infer_instance

instance TimeWF.instDecidable (t : FlatTree) : Decidable (TimeWF t) := by
  unfold TimeWF; infer_instance

instance AllDepths.instDecidable (t : FlatTree) : Decidable (AllDepths t) := by
  unfold AllDepths; infer_instance

/-- `Result::is_ok` on the embedded `Result<_, SprError>`. -/
def exceptIsOk {α : Type} : Except SprError α → Bool
  | Except.ok _ => true
  | Except.error _ => false


@[simp] theorem parentOf_ite (c : Prop) [Decidable c] (X Y : FlatTree) (j : Nat) :
    parentOf (if c then X else Y) j = if c then parentOf X j else parentOf Y j :=
  apply_ite (fun u => parentOf u j) c X Y

@[simp] theorem leftOf_ite (c : Prop) [Decidable c] (X Y : FlatTree) (j : Nat) :
    leftOf (if c then X else Y) j = if c then leftOf X j else leftOf Y j :=
  apply_ite (fun u => leftOf u j) c X Y

@[simp] theorem rightOf_ite (c : Prop) [Decidable c] (X Y : FlatTree) (j : Nat) :
    rightOf (if c then X else Y) j = if c then rightOf X j else rightOf Y j :=
  apply_ite (fun u => rightOf u j) c X Y

@[simp] theorem depthOf_ite (c : Prop) [Decidable c] (X Y : FlatTree) (j : Nat) :
    depthOf (if c then X else Y) j = if c then depthOf X j else depthOf Y j :=
  apply_ite (fun u => depthOf u j) c X Y

@[simp] theorem lengthOf_ite (c : Prop) [Decidable c] (X Y : FlatTree) (j : Nat) :
    lengthOf (if c then X else Y) j = if c then lengthOf X j else lengthOf Y j :=
  apply_ite (fun u => lengthOf u j) c X Y

@[simp] theorem nameOf_ite (c : Prop) [Decidable c] (X Y : FlatTree) (j : Nat) :
    nameOf (if c then X else Y) j = if c then nameOf X j else nameOf Y j :=
  apply_ite (fun u => nameOf u j) c X Y

@[simp] theorem length_ite (c : Prop) [Decidable c] (X Y : FlatTree) :
    (if c then X else Y).nodes.length = if c then X.nodes.length else Y.nodes.length :=
  apply_ite (fun u => u.nodes.length) c X Y

@[simp] theorem root_ite (c : Prop) [Decidable c] (X Y : FlatTree) :
    (if c then X else Y).root = if c then X.root else Y.root :=
  apply_ite (fun u => u.root) c X Y

@[simp] theorem ite_some {α : Type} (c : Prop) [Decidable c] (x y : α) :
    (if c then some x else some y) = some (if c then x else y) :=
  (apply_ite some c x y).symm

@[simp] theorem ite_bind {α β : Type} (c : Prop) [Decidable c] (x y : Option α)
    (f : α → Option β) :
    (if c then x else y).bind f = if c then x.bind f else y.bind f :=
  apply_ite (fun o => o.bind f) c x y

theorem WF.root_lt {t : FlatTree} (h : WF t) : t.root < t.nodes.length := h.1

theorem WF.root_parent {t : FlatTree} (h : WF t) : parentOf t t.root = none := h.2.1

theorem WF.parent_isSome {t : FlatTree} (h : WF t) {i : Nat} (hi : i < t.nodes.length)
    (hne : i ≠ t.root) : ∃ p, parentOf t i = some p := by
  have := h.2.2.1 i hi hne
  cases hp : parentOf t i with
  | none => rw [hp] at this; exact absurd this (by simp)
  | some p => exact ⟨p, rfl⟩

theorem WF.parent_lt {t : FlatTree} (h : WF t) {i p : Nat} (hi : i < t.nodes.length)
    (hp : parentOf t i = some p) : p < t.nodes.length := by
  have := h.2.2.2.1 i hi
  rw [hp] at this
  simpa using this

theorem WF.left_lt {t : FlatTree} (h : WF t) {i c : Nat} (hi : i < t.nodes.length)
    (hc : leftOf t i = some c) : c < t.nodes.length := by
  have := (h.2.2.2.2.1 i hi).1
  rw [hc] at this
  simpa using this

theorem WF.right_lt {t : FlatTree} (h : WF t) {i c : Nat} (hi : i < t.nodes.length)
    (hc : rightOf t i = some c) : c < t.nodes.length := by
  have := (h.2.2.2.2.1 i hi).2
  rw [hc] at this
  simpa using this

theorem WF.child_parent {t : FlatTree} (h : WF t) {i c : Nat} (hi : i < t.nodes.length)
    (hc : leftOf t i = some c ∨ rightOf t i = some c) : parentOf t c = some i := by
  have hclt : c < t.nodes.length := by
    cases hc with
    | inl hl => exact h.left_lt hi hl
    | inr hr => exact h.right_lt hi hr
  exact h.2.2.2.2.2.1 i hi c hclt hc

theorem WF.parent_child {t : FlatTree} (h : WF t) {i p : Nat} (hi : i < t.nodes.length)
    (hp : parentOf t i = some p) : leftOf t p = some i ∨ rightOf t p = some i :=
  h.2.2.2.2.2.2.1 i hi p (h.parent_lt hi hp) hp

theorem WF.not_root_of_parent {t : FlatTree} (h : WF t) {i p : Nat}
    (hp : parentOf t i = some p) : i ≠ t.root := by
  intro hroot
  rw [hroot, h.root_parent] at hp
  exact Option.noConfusion hp

theorem WF.root_of_no_parent {t : FlatTree} (h : WF t) {i : Nat} (hi : i < t.nodes.length)
    (hp : parentOf t i = none) : i = t.root := by
  by_contra hne
  obtain ⟨p, hsome⟩ := h.parent_isSome hi hne
  rw [hp] at hsome
  exact Option.noConfusion hsome

/-- Both child slots of the parent of a node are occupied, by distinct
indices, and one of them holds the node itself. -/
theorem WF.sibling_spec {t : FlatTree} (h : WF t) {i p : Nat} (hi : i < t.nodes.length)
    (hp : parentOf t i = some p) :
    ∃ a b, leftOf t p = some a ∧ rightOf t p = some b ∧ a ≠ b ∧ (a = i ∨ b = i) := by
  have hplt : p < t.nodes.length := h.parent_lt hi hp
  have hchild := h.parent_child hi hp
  have htwo := h.2.2.2.2.2.2.2.1 p hplt
  have hdistinct := h.2.2.2.2.2.2.2.2.1 p hplt
  cases hl : leftOf t p with
  | none =>
    cases hr : rightOf t p with
    | none => rw [hl, hr] at hchild; rcases hchild with hc | hc <;> exact Option.noConfusion hc
    | some b =>
      rw [hl, hr] at htwo
      exact absurd htwo (by simp)
  | some a =>
    cases hr : rightOf t p with
    | none =>
      rw [hl, hr] at htwo
      exact absurd htwo (by simp)
    | some b =>
      refine ⟨a, b, rfl, rfl, ?_, ?_⟩
      · intro hab
        have := hdistinct (by rw [hl]; rfl)
        rw [hl, hr, hab] at this
        exact this rfl
      · rw [hl, hr] at hchild
        rcases hchild with hc | hc
        · exact Or.inl (Option.some.inj hc.symm).symm
        · exact Or.inr (Option.some.inj hc.symm).symm

theorem reachesRoot_false_of_swap {t : FlatTree} {i j : Nat}
    (hij : parentOf t i = some j) (hji : parentOf t j = some i)
    (hir : i ≠ t.root) (hjr : j ≠ t.root) :
    ∀ fuel, reachesRoot t fuel i = false ∧ reachesRoot t fuel j = false := by
  intro fuel
  induction fuel with
  | zero => exact ⟨rfl, rfl⟩
  | succ n ih =>
    constructor
    · show reachesRoot t (n + 1) i = false
      unfold reachesRoot
      rw [if_neg hir, hij]
      exact ih.2
    · show reachesRoot t (n + 1) j = false
      unfold reachesRoot
      rw [if_neg hjr, hji]
      exact ih.1

theorem WF.parent_ne_self {t : FlatTree} (h : WF t) {i : Nat} (hi : i < t.nodes.length) :
    parentOf t i ≠ some i := by
  intro hp
  have hir : i ≠ t.root := h.not_root_of_parent hp
  have := (reachesRoot_false_of_swap hp hp hir hir t.nodes.length).1
  have hreach := h.2.2.2.2.2.2.2.2.2 i hi
  rw [hreach] at this
  exact Bool.noConfusion this

theorem WF.no_parent_swap {t : FlatTree} (h : WF t) {i j : Nat} (hi : i < t.nodes.length)
    (hij : parentOf t i = some j) (hji : parentOf t j = some i) : False := by
  have hir : i ≠ t.root := h.not_root_of_parent hji |> fun hjr => h.not_root_of_parent hij
  have hjr : j ≠ t.root := h.not_root_of_parent hji
  have := (reachesRoot_false_of_swap hij hji (h.not_root_of_parent hij) hjr t.nodes.length).1
  have hreach := h.2.2.2.2.2.2.2.2.2 i hi
  rw [hreach] at this
  exact Bool.noConfusion this

/-- Successful execution of the dated `spr` on a well-formed tree when
neither endpoint is the root: it returns a tree in which the donor's parent
is the recipient's former parent and that node's depth is the transfer time. -/
theorem spr_exec (t : FlatTree) (donor recipient : Nat) (time : ℚ)
    (hwf : WF t) (hd : donor < t.nodes.length) (hr : recipient < t.nodes.length)
    (hdroot : donor ≠ t.root) (hrroot : recipient ≠ t.root) :
    ∃ t' pr, spr t donor recipient time = some t' ∧
      parentOf t recipient = some pr ∧
      parentOf t' donor = some pr ∧ depthOf t' pr = some time := by
  obtain ⟨pd, hpd⟩ := hwf.parent_isSome hd hdroot
  obtain ⟨pr, hpr⟩ := hwf.parent_isSome hr hrroot
  have hpdlt : pd < t.nodes.length := hwf.parent_lt hd hpd
  have hprlt : pr < t.nodes.length := hwf.parent_lt hr hpr
  obtain ⟨a, b, hla, hrb, hab, hor⟩ := hwf.sibling_spec hr hpr
  by_cases hpp : pd = pr
  · -- same-parent case: only the depth of the shared parent is updated
    refine ⟨?_, pr, ?eq, hpr, ?p1, ?p2⟩
    case eq =>
      simp only [spr, Option.bind_eq_bind, Option.pure_def, hpd, hpr, hla, hrb,
        ite_some, Option.some_bind, if_pos hpp]
      exact rfl
    case p1 => simp [hpd, hpp]
    case p2 => simp [hprlt]
  · -- general case: the five pointer updates run through
    obtain ⟨e, f, hle, hrf, hef, horef⟩ := hwf.sibling_spec hd hpd
    have hpdpr : pd ≠ pr := hpp
    by_cases hprr : pr = t.root
    · -- the recipient's parent is the root: the sibling becomes the new root
      have hnog : parentOf t pr = none := hprr ▸ hwf.root_parent
      refine ⟨?_, pr, ?eq, hpr, ?p1, ?p2⟩
      case eq =>
        simp only [spr, Option.bind_eq_bind, Option.pure_def, hpd, hpr, hla, hrb, hnog,
          ite_some, Option.some_bind, ite_bind, if_neg hpp, Option.isSome_none,
          Bool.false_eq_true, if_false, leftOf_ite, leftOf_setRoot, leftOf_setParent,
          leftOf_setDepth, leftOf_setLeft, leftOf_setRight, length_ite, length_setParent,
          length_setLeft, length_setRight, length_setDepth, length_setRoot, hpdpr, hle,
          ite_self, false_and, ite_false]
        exact rfl
      case p1 => simp [hd]
      case p2 => simp [hprlt, hpdpr]
    · -- the recipient has a grandparent
      obtain ⟨ppr, hppr⟩ := hwf.parent_isSome hprlt hprr
      have hpprlt : ppr < t.nodes.length := hwf.parent_lt hprlt hppr
      have hpprne : ppr ≠ pr := by
        intro hc
        exact hwf.parent_ne_self hprlt (hc ▸ hppr)
      obtain ⟨c, c2, hlc, hrc2, hcc2, horc⟩ := hwf.sibling_spec hprlt hppr
      refine ⟨?_, pr, ?eq, hpr, ?p1, ?p2⟩
      case eq =>
        simp only [spr, Option.bind_eq_bind, Option.pure_def, hpd, hpr, hla, hrb, hppr,
          ite_some, Option.some_bind, ite_bind, if_neg hpp, Option.isSome_some, if_true,
          leftOf_ite, leftOf_setRoot, leftOf_setParent, leftOf_setDepth, leftOf_setLeft,
          leftOf_setRight, length_ite, length_setParent, length_setLeft, length_setRight,
          length_setDepth, length_setRoot, hpdpr, hpprne, hle, hlc, ite_self, false_and,
          ite_false]
        exact rfl
      case p1 => simp [hd]
      case p2 => simp [hprlt, hpdpr, hpprne]

/-- Claim C10: on a well-formed binary flat tree with in-bounds donor and
recipient indices, the dated `spr` used by the gene-transfer pipeline panics
(modelled as `none`) exactly when the donor or the recipient is the root; on
every other input, including donor = recipient or donor an ancestor of the
recipient, it returns normally, performing no precondition validation and
returning no structured error. -/
theorem spr_panics_iff_endpoint_is_root (t : FlatTree) (donor recipient : Nat) (time : ℚ)
    (hwf : WF t) (hd : donor < t.nodes.length) (hr : recipient < t.nodes.length) :
    spr t donor recipient time = none ↔ (donor = t.root ∨ recipient = t.root) := by
  constructor
  · intro h
    by_contra hc
    push_neg at hc
    obtain ⟨t', pr, heq, -, -, -⟩ := spr_exec t donor recipient time hwf hd hr hc.1 hc.2
    rw [heq] at h
    exact Option.noConfusion h
  · intro h
    by_cases hdr : donor = t.root
    · have hnone : parentOf t donor = none := hdr ▸ hwf.root_parent
      simp only [spr, Option.bind_eq_bind, hnone, Option.none_bind]
    · have hrr : recipient = t.root := h.resolve_left hdr
      obtain ⟨pd, hpd⟩ := hwf.parent_isSome hd hdr
      have hnone : parentOf t recipient = none := hrr ▸ hwf.root_parent
      simp only [spr, Option.bind_eq_bind, hpd, Option.some_bind, hnone, Option.none_bind]

/-- Witness for claim C10 at a concrete input. -/
theorem spr_panics_iff_endpoint_is_root_witness :
    (WF sampleTree5 ∧ 2 < sampleTree5.nodes.length ∧ 0 < sampleTree5.nodes.length) ∧
    (spr sampleTree5 2 0 1 = none ↔ (2 = sampleTree5.root ∨ 0 = sampleTree5.root)) :=
  ⟨⟨by decide, by decide, by decide⟩,
    spr_panics_iff_endpoint_is_root sampleTree5 2 0 1 (by decide) (by decide) (by decide)⟩

/-- Claim C2: for a well-formed binary flat tree and a call
`spr(donor, recipient, time)` satisfying the preconditions (neither endpoint
is the root, donor ≠ recipient, donor not an ancestor of the recipient), the
call succeeds and afterwards the depth of the donor's (possibly new) parent
equals `time`. -/
theorem spr_donor_parent_depth_eq_time (t : FlatTree) (donor recipient : Nat) (time : ℚ)
    (hwf : WF t) (hd : donor < t.nodes.length) (hr : recipient < t.nodes.length)
    (hdroot : donor ≠ t.root) (hrroot : recipient ≠ t.root)
    (hne : donor ≠ recipient) (hanc : is_ancestor t donor recipient = false) :
    ∃ t' p, spr t donor recipient time = some t' ∧
      parentOf t' donor = some p ∧ depthOf t' p = some time := by
  obtain ⟨t', pr, heq, -, hpar, hdep⟩ := spr_exec t donor recipient time hwf hd hr hdroot hrroot
  exact ⟨t', pr, heq, hpar, hdep⟩

/-- Witness for claim C2 at a concrete input. -/
theorem spr_donor_parent_depth_eq_time_witness :
    (WF sampleTree7 ∧ 2 ≠ sampleTree7.root ∧ 5 ≠ sampleTree7.root ∧
      is_ancestor sampleTree7 2 5 = false) ∧
    (∃ t' p, spr sampleTree7 2 5 (3/2) = some t' ∧
      parentOf t' 2 = some p ∧ depthOf t' p = some (3/2)) :=
  ⟨⟨by decide, by decide, by decide, by decide⟩,
    spr_donor_parent_depth_eq_time sampleTree7 2 5 (3/2) (by decide) (by decide) (by decide)
      (by decide) (by decide) (by decide) (by decide)⟩

/-- Claim C1 (code bug evidence): on the well-formed tree
`((D,S1)P1,(C,S2)P2)R` the dated `spr` with donor `D = 2` and recipient
`C = 5` produces a structure that violates the §3 invariants: the recipient's
former parent `P2 = 4` ends with children `{D = 2, S2 = 6}` instead of
`{donor, recipient}`, the recipient `C = 5` still records parent `P2` while
no node lists it as a child, and the sibling `S2 = 6` is simultaneously a
child of `P2 = 4` and of the root `R = 0` — reciprocity and the binary-rooted
invariant are broken, so the move does not preserve the invariants of §3. -/
theorem spr_breaks_invariants_on_sample :
    (spr sampleTree7 2 5 (3/2)).map
      (fun u => (leftOf u 4, rightOf u 4, parentOf u 5, parentOf u 6, rightOf u 0)) =
      some (some 2, some 6, some 4, some 0, some 6) := by decide

/-- Claim C4 (amended): `remove_node` on a non-root leaf `i` splices out `i`
and its parent `p`: the sibling `s` takes `p`'s slot under the grandparent
`g` (or becomes the root when `p` was the root), `parent(i)` is cleared, and
all slots keep their positions, names, lengths and depths; however the
orphaned parent `p` keeps its stale parent and child pointers — they are not
cleared. -/
theorem remove_node_spec (t : FlatTree) (i : Nat)
    (hwf : WF t) (hi : i < t.nodes.length) (hroot : i ≠ t.root)
    (hleaf : leftOf t i = none ∧ rightOf t i = none) :
    ∃ t' p s, remove_node t i = some t' ∧ parentOf t i = some p ∧
      ((leftOf t p = some i ∧ rightOf t p = some s) ∨
       (rightOf t p = some i ∧ leftOf t p = some s)) ∧
      parentOf t' i = none ∧
      (∀ g, parentOf t p = some g →
        parentOf t' s = some g ∧ t'.root = t.root ∧
        (leftOf t g = some p → leftOf t' g = some s ∧ rightOf t' g = rightOf t g) ∧
        (leftOf t g ≠ some p → rightOf t' g = some s ∧ leftOf t' g = leftOf t g)) ∧
      (parentOf t p = none → t'.root = s ∧ parentOf t' s = none) ∧
      parentOf t' p = parentOf t p ∧ leftOf t' p = leftOf t p ∧ rightOf t' p = rightOf t p ∧
      t'.nodes.length = t.nodes.length ∧
      (∀ j, nameOf t' j = nameOf t j ∧ lengthOf t' j = lengthOf t j ∧
        depthOf t' j = depthOf t j) := by
  obtain ⟨p, hp⟩ := hwf.parent_isSome hi hroot
  have hplt : p < t.nodes.length := hwf.parent_lt hi hp
  have hpne : p ≠ i := by
    intro hc
    exact hwf.parent_ne_self hi (hc ▸ hp)
  obtain ⟨a, b, hla, hrb, hab, hor⟩ := hwf.sibling_spec hi hp
  rcases hor with ha | hb
  · -- the removed leaf is the left child; the sibling is the right child
    subst ha
    have hbp : parentOf t b = some p := hwf.child_parent hplt (Or.inr hrb)
    have hbne : b ≠ a := fun hc => hab hc.symm
    have hpb : p ≠ b := by
      intro hc
      exact hwf.parent_ne_self hplt (hc ▸ hbp)
    have hbnep : b ≠ p := fun hc => hpb hc.symm
    have hblt : b < t.nodes.length := hwf.right_lt hplt hrb
    cases hgp : parentOf t p with
    | none =>
      refine ⟨?_, p, b, ?eq, hp, Or.inl ⟨hla, hrb⟩, ?_, ?_, ?_, ?_, ?_, ?_, ?_, ?_⟩
      case eq =>
        simp only [remove_node, Option.bind_eq_bind, Option.pure_def, hp, hla, hrb, hgp,
          Option.some_bind, if_pos rfl]
        exact rfl
      · simp [hi, hab]
      · simp [hgp]
      · intro _
        refine ⟨rfl, ?_⟩
        simp [hblt]
      · simp [hpne, hpb]
      · simp
      · simp
      · simp
      · intro j
        simp
    | some g =>
      have hglt : g < t.nodes.length := hwf.parent_lt hplt hgp
      have hgnep : g ≠ p := by
        intro hc
        exact hwf.parent_ne_self hplt (hc ▸ hgp)
      have hpg : p ≠ g := fun hc => hgnep hc.symm
      obtain ⟨c, c2, hgc, hgc2, hcc2, horg⟩ := hwf.sibling_spec hplt hgp
      by_cases hcp : c = p
      · subst hcp
        refine ⟨?_, c, b, ?eq, hp, Or.inl ⟨hla, hrb⟩, ?_, ?_, ?_, ?_, ?_, ?_, ?_, ?_⟩
        case eq =>
          simp only [remove_node, Option.bind_eq_bind, Option.pure_def, hp, hla, hrb, hgp,
            hgc, Option.some_bind, if_pos rfl, leftOf_setParent]
          exact rfl
        · simp [hi, hab]
        · intro g' hg'
          rw [hgp] at hg'
          obtain rfl : g = g' := Option.some.inj hg'
          refine ⟨by simp [hblt], by simp, fun _ => ⟨by simp [hglt], by simp [hgnep]⟩,
            fun hcon => absurd hgc hcon⟩
        · simp [hgp]
        · simp [hpne, hpb, hpg]
        · simp [hpg]
        · simp [hpg]
        · simp
        · intro j
          simp
      · have hgrp : rightOf t g = some c2 ∧ c2 = p := by
          rcases hwf.parent_child hplt hgp with hl | hr2
          · rw [hgc] at hl
            exact absurd (Option.some.inj hl) hcp
          · rw [hgc2] at hr2
            exact ⟨hgc2, Option.some.inj hr2⟩
        obtain ⟨-, rfl⟩ := hgrp
        have hcnep : some c ≠ some c2 := fun hc => hcp (Option.some.inj hc)
        refine ⟨?_, c2, b, ?eq, hp, Or.inl ⟨hla, hrb⟩, ?_, ?_, ?_, ?_, ?_, ?_, ?_, ?_⟩
        case eq =>
          simp only [remove_node, Option.bind_eq_bind, Option.pure_def, hp, hla, hrb, hgp,
            hgc, Option.some_bind, if_pos rfl, leftOf_setParent, if_neg hcp]
          exact rfl
        · simp [hi, hab]
        · intro g' hg'
          rw [hgp] at hg'
          obtain rfl : g = g' := Option.some.inj hg'
          refine ⟨by simp [hblt], by simp, ?_, fun _ => ⟨by simp [hglt], by simp [hgnep]⟩⟩
          intro hcon
          rw [hgc] at hcon
          exact absurd hcon hcnep
        · simp [hgp]
        · simp [hpne, hpb, hpg]
        · simp [hpg]
        · simp [hpg]
        · simp
        · intro j
          simp
  · -- the removed leaf is the right child; the sibling is the left child
    subst hb
    have hap : parentOf t a = some p := hwf.child_parent hplt (Or.inl hla)
    have hane : a ≠ b := hab
    have hpa : p ≠ a := by
      intro hc
      exact hwf.parent_ne_self hplt (hc ▸ hap)
    have hanep : a ≠ p := fun hc => hpa hc.symm
    have halt : a < t.nodes.length := hwf.left_lt hplt hla
    cases hgp : parentOf t p with
    | none =>
      refine ⟨?_, p, a, ?eq, hp, Or.inr ⟨hrb, hla⟩, ?_, ?_, ?_, ?_, ?_, ?_, ?_, ?_⟩
      case eq =>
        simp only [remove_node, Option.bind_eq_bind, Option.pure_def, hp, hla, hrb, hgp,
          Option.some_bind, if_neg hane]
        exact rfl
      · simp [hi, hane, Ne.symm hane]
      · simp [hgp]
      · intro _
        refine ⟨rfl, ?_⟩
        simp [halt]
      · simp [hpne, hpa]
      · simp
      · simp
      · simp
      · intro j
        simp
    | some g =>
      have hglt : g < t.nodes.length := hwf.parent_lt hplt hgp
      have hgnep : g ≠ p := by
        intro hc
        exact hwf.parent_ne_self hplt (hc ▸ hgp)
      have hpg : p ≠ g := fun hc => hgnep hc.symm
      obtain ⟨c, c2, hgc, hgc2, hcc2, horg⟩ := hwf.sibling_spec hplt hgp
      by_cases hcp : c = p
      · subst hcp
        refine ⟨?_, c, a, ?eq, hp, Or.inr ⟨hrb, hla⟩, ?_, ?_, ?_, ?_, ?_, ?_, ?_, ?_⟩
        case eq =>
          simp only [remove_node, Option.bind_eq_bind, Option.pure_def, hp, hla, hrb, hgp,
            hgc, Option.some_bind, if_neg hane, leftOf_setParent, if_pos rfl]
          exact rfl
        · simp [hi, hane, Ne.symm hane]
        · intro g' hg'
          rw [hgp] at hg'
          obtain rfl : g = g' := Option.some.inj hg'
          refine ⟨by simp [halt], by simp, fun _ => ⟨by simp [hglt], by simp [hgnep]⟩,
            fun hcon => absurd hgc hcon⟩
        · simp [hgp]
        · simp [hpne, hpa, hpg]
        · simp [hpg]
        · simp [hpg]
        · simp
        · intro j
          simp
      · have hgrp : rightOf t g = some c2 ∧ c2 = p := by
          rcases hwf.parent_child hplt hgp with hl | hr2
          · rw [hgc] at hl
            exact absurd (Option.some.inj hl) hcp
          · rw [hgc2] at hr2
            exact ⟨hgc2, Option.some.inj hr2⟩
        obtain ⟨-, rfl⟩ := hgrp
        have hcnep : some c ≠ some c2 := fun hc => hcp (Option.some.inj hc)
        refine ⟨?_, c2, a, ?eq, hp, Or.inr ⟨hrb, hla⟩, ?_, ?_, ?_, ?_, ?_, ?_, ?_, ?_⟩
        case eq =>
          simp only [remove_node, Option.bind_eq_bind, Option.pure_def, hp, hla, hrb, hgp,
            hgc, Option.some_bind, if_neg hane, leftOf_setParent, if_neg hcp]
          exact rfl
        · simp [hi, hane, Ne.symm hane]
        · intro g' hg'
          rw [hgp] at hg'
          obtain rfl : g = g' := Option.some.inj hg'
          refine ⟨by simp [halt], by simp, ?_, fun _ => ⟨by simp [hglt], by simp [hgnep]⟩⟩
          intro hcon
          rw [hgc] at hcon
          exact absurd hcon hcnep
        · simp [hgp]
        · simp [hpne, hpa, hpg]
        · simp [hpg]
        · simp [hpg]
        · simp
        · intro j
          simp

/-- Claim C4 counterexample: after removing the non-root leaf `A = 2` of
`((A,B)P,C)R`, the orphaned parent `P = 1` still records parent `R = 0` and
children `{A = 2, B = 3}` — contrary to the claim, its dangling parent/child
references are not cleared. -/
theorem remove_node_keeps_orphan_pointers :
    (remove_node sampleTree5 2).map (fun u => (parentOf u 1, leftOf u 1, rightOf u 1)) =
      some (some 0, some 2, some 3) := by decide

/-- Witness for claim C4 (amended theorem) at a concrete input. -/
theorem remove_node_spec_witness :
    (WF sampleTree5 ∧ 2 < sampleTree5.nodes.length ∧ 2 ≠ sampleTree5.root ∧
      leftOf sampleTree5 2 = none ∧ rightOf sampleTree5 2 = none) ∧
    (∃ t' p s, remove_node sampleTree5 2 = some t' ∧ parentOf sampleTree5 2 = some p ∧
      ((leftOf sampleTree5 p = some 2 ∧ rightOf sampleTree5 p = some s) ∨
       (rightOf sampleTree5 p = some 2 ∧ leftOf sampleTree5 p = some s)) ∧
      parentOf t' 2 = none ∧
      (∀ g, parentOf sampleTree5 p = some g →
        parentOf t' s = some g ∧ t'.root = sampleTree5.root ∧
        (leftOf sampleTree5 g = some p →
          leftOf t' g = some s ∧ rightOf t' g = rightOf sampleTree5 g) ∧
        (leftOf sampleTree5 g ≠ some p →
          rightOf t' g = some s ∧ leftOf t' g = leftOf sampleTree5 g)) ∧
      (parentOf sampleTree5 p = none → t'.root = s ∧ parentOf t' s = none) ∧
      parentOf t' p = parentOf sampleTree5 p ∧ leftOf t' p = leftOf sampleTree5 p ∧
      rightOf t' p = rightOf sampleTree5 p ∧
      t'.nodes.length = sampleTree5.nodes.length ∧
      (∀ j, nameOf t' j = nameOf sampleTree5 j ∧ lengthOf t' j = lengthOf sampleTree5 j ∧
        depthOf t' j = depthOf sampleTree5 j)) :=
  ⟨⟨by decide, by decide, by decide, by decide, by decide⟩,
    remove_node_spec sampleTree5 2 (by decide) (by decide) (by decide) ⟨by decide, by decide⟩⟩

/-- Claim C5 counterexample: on `((A,B)P,C)R`, `spr_topology` with donor
`A = 2` and recipient the root `R = 0` succeeds, although the claim lists
"recipient is the root" as a precondition violation; and with donor `A = 2`
and recipient `P = 1` (the donor's parent, none of the claim's listed
violations) it returns a structured failure. -/
theorem spr_topology_claimed_failure_set_is_wrong :
    exceptIsOk (spr_topology sampleTree5 2 0) = true ∧
    exceptIsOk (spr_topology sampleTree5 2 1) = false := by decide


@[simp] theorem exceptPure_eq_ok {ε α : Type} (a : α) :
    (pure a : Except ε α) = Except.ok a := rfl

@[simp] theorem exceptThrow_eq_error {ε α : Type} (e : ε) :
    (throw e : Except ε α) = Except.error e := rfl

@[simp] theorem exceptOk_bind {ε α β : Type} (a : α) (f : α → Except ε β) :
    (Except.ok a : Except ε α) >>= f = f a := rfl

@[simp] theorem exceptError_bind {ε α β : Type} (e : ε) (f : α → Except ε β) :
    (Except.error e : Except ε α) >>= f = Except.error e := rfl

/-- Execution of `FlatTree::detach` on a well-formed tree at a non-root
node `n`: it succeeds, and the lemma records the pointer facts needed to run
`attach` afterwards. -/
theorem detach_spec (t : FlatTree) (n : Nat) (hwf : WF t) (hn : n < t.nodes.length)
    (hroot : n ≠ t.root) :
    ∃ t' p s, detach t n = Except.ok (t', p) ∧ parentOf t n = some p ∧
      ((leftOf t p = some n ∧ rightOf t p = some s) ∨
       (rightOf t p = some n ∧ leftOf t p = some s)) ∧
      parentOf t' p = none ∧
      ((leftOf t' p = some n ∧ rightOf t' p = none) ∨
       (leftOf t' p = none ∧ rightOf t' p = some n)) ∧
      t'.nodes.length = t.nodes.length ∧
      (∀ j, j ≠ s → j ≠ p → parentOf t' j = parentOf t j) ∧
      (∀ g, parentOf t p = some g →
        t'.root = t.root ∧
        (∀ j, j ≠ g → j ≠ p → leftOf t' j = leftOf t j ∧ rightOf t' j = rightOf t j) ∧
        (leftOf t g = some p → leftOf t' g = some s ∧ rightOf t' g = rightOf t g) ∧
        (leftOf t g ≠ some p → rightOf t' g = some s ∧ leftOf t' g = leftOf t g)) ∧
      (parentOf t p = none → t'.root = s ∧
        (∀ j, j ≠ p → leftOf t' j = leftOf t j ∧ rightOf t' j = rightOf t j)) := by
  obtain ⟨p, hp⟩ := hwf.parent_isSome hn hroot
  have hplt : p < t.nodes.length := hwf.parent_lt hn hp
  have hpne : p ≠ n := by
    intro hc
    exact hwf.parent_ne_self hn (hc ▸ hp)
  obtain ⟨a, b, hla, hrb, hab, hor⟩ := hwf.sibling_spec hn hp
  rcases hor with ha | hb
  · -- n is the left child; the sibling is the right child
    subst ha
    have hbp : parentOf t b = some p := hwf.child_parent hplt (Or.inr hrb)
    have hpb : p ≠ b := by
      intro hc
      exact hwf.parent_ne_self hplt (hc ▸ hbp)
    have hbnep : b ≠ p := fun hc => hpb hc.symm
    have hblt : b < t.nodes.length := hwf.right_lt hplt hrb
    cases hgp : parentOf t p with
    | none =>
      refine ⟨?_, p, b, ?eq, hp, Or.inl ⟨hla, hrb⟩, ?_, ?_, ?_, ?_, ?_, ?_⟩
      case eq =>
        simp only [detach, hp, hla, hrb, if_pos rfl, detachGo, hgp, exceptPure_eq_ok,
          exceptOk_bind, if_true]
        exact rfl
      · simp [hplt]
      · exact Or.inl ⟨by simp [hbnep, hla], by simp [hplt]⟩
      · simp
      · intro j hjb hjp
        simp [hjb, hjp]
      · simp [hgp]
      · intro _
        refine ⟨by simp, ?_⟩
        intro j hjp
        constructor <;> simp [hjp]
    | some g =>
      have hglt : g < t.nodes.length := hwf.parent_lt hplt hgp
      have hgnep : g ≠ p := by
        intro hc
        exact hwf.parent_ne_self hplt (hc ▸ hgp)
      have hpg : p ≠ g := fun hc => hgnep hc.symm
      obtain ⟨c, c2, hgc, hgc2, hcc2, horg⟩ := hwf.sibling_spec hplt hgp
      by_cases hcp : c = p
      · subst hcp
        refine ⟨?_, c, b, ?eq, hp, Or.inl ⟨hla, hrb⟩, ?_, ?_, ?_, ?_, ?_, ?_⟩
        case eq =>
          simp only [detach, hp, hla, hrb, if_pos rfl, detachGo, hgp, hgc,
            exceptPure_eq_ok, exceptOk_bind, if_true, if_pos rfl]
          exact rfl
        · simp [hplt, hpg]
        · exact Or.inl ⟨by simp [hbnep, hgnep, hpg, hla], by simp [hplt, hpg]⟩
        · simp
        · intro j hjb hjp
          simp [hjb, hjp]
        · intro g' hg'
          rw [hgp] at hg'
          obtain rfl : g = g' := Option.some.inj hg'
          refine ⟨by simp, ?_, fun _ => ⟨by simp [hglt, hgnep], by simp [hgnep]⟩,
            fun hcon => absurd hgc hcon⟩
          intro j hjg hjp
          constructor <;> simp [hjg, hjp]
        · simp [hgp]
      · have hgrp : rightOf t g = some p := by
          rcases hwf.parent_child hplt hgp with hl | hr2
          · rw [hgc] at hl
            exact absurd (Option.some.inj hl) hcp
          · exact hr2
        have hcnep : leftOf t g ≠ some p := by
          rw [hgc]
          exact fun hc => hcp (Option.some.inj hc)
        have hscp : (some c : Option Nat) ≠ some p := fun hc => hcp (Option.some.inj hc)
        refine ⟨?_, p, b, ?eq, hp, Or.inl ⟨hla, hrb⟩, ?_, ?_, ?_, ?_, ?_, ?_⟩
        case eq =>
          simp only [detach, hp, hla, hrb, if_pos rfl, detachGo, hgp, hgc, hgrp,
            exceptPure_eq_ok, exceptOk_bind, if_true, if_neg hscp, if_pos rfl]
          exact rfl
        · simp [hplt, hpg]
        · exact Or.inl ⟨by simp [hbnep, hgnep, hpg, hla], by simp [hplt, hpg]⟩
        · simp
        · intro j hjb hjp
          simp [hjb, hjp]
        · intro g' hg'
          rw [hgp] at hg'
          obtain rfl : g = g' := Option.some.inj hg'
          refine ⟨by simp, ?_, fun hcon => absurd hcon hcnep,
            fun _ => ⟨by simp [hglt, hgnep], by simp [hgnep]⟩⟩
          intro j hjg hjp
          constructor <;> simp [hjg, hjp]
        · simp [hgp]
  · -- n is the right child; the sibling is the left child
    subst hb
    have hap : parentOf t a = some p := hwf.child_parent hplt (Or.inl hla)
    have hpa : p ≠ a := by
      intro hc
      exact hwf.parent_ne_self hplt (hc ▸ hap)
    have hanep : a ≠ p := fun hc => hpa hc.symm
    have halt : a < t.nodes.length := hwf.left_lt hplt hla
    cases hgp : parentOf t p with
    | none =>
      refine ⟨?_, p, a, ?eq, hp, Or.inr ⟨hrb, hla⟩, ?_, ?_, ?_, ?_, ?_, ?_⟩
      case eq =>
        simp only [detach, hp, hla, hrb, if_neg hab, if_pos rfl, detachGo, hgp,
          exceptPure_eq_ok, exceptOk_bind, if_true]
        exact rfl
      · simp [hplt]
      · exact Or.inr ⟨by simp [hplt], by simp [hanep, hrb]⟩
      · simp
      · intro j hja hjp
        simp [hja, hjp]
      · simp [hgp]
      · intro _
        refine ⟨by simp, ?_⟩
        intro j hjp
        constructor <;> simp [hjp]
    | some g =>
      have hglt : g < t.nodes.length := hwf.parent_lt hplt hgp
      have hgnep : g ≠ p := by
        intro hc
        exact hwf.parent_ne_self hplt (hc ▸ hgp)
      have hpg : p ≠ g := fun hc => hgnep hc.symm
      obtain ⟨c, c2, hgc, hgc2, hcc2, horg⟩ := hwf.sibling_spec hplt hgp
      by_cases hcp : c = p
      · subst hcp
        refine ⟨?_, c, a, ?eq, hp, Or.inr ⟨hrb, hla⟩, ?_, ?_, ?_, ?_, ?_, ?_⟩
        case eq =>
          simp only [detach, hp, hla, hrb, if_neg hab, if_pos rfl, detachGo, hgp, hgc,
            exceptPure_eq_ok, exceptOk_bind, if_true, if_pos rfl]
          exact rfl
        · simp [hplt, hpg]
        · exact Or.inr ⟨by simp [hplt, hpg], by simp [hanep, hgnep, hpg, hrb]⟩
        · simp
        · intro j hja hjp
          simp [hja, hjp]
        · intro g' hg'
          rw [hgp] at hg'
          obtain rfl : g = g' := Option.some.inj hg'
          refine ⟨by simp, ?_, fun _ => ⟨by simp [hglt, hgnep], by simp [hgnep]⟩,
            fun hcon => absurd hgc hcon⟩
          intro j hjg hjp
          constructor <;> simp [hjg, hjp]
        · simp [hgp]
      · have hgrp : rightOf t g = some p := by
          rcases hwf.parent_child hplt hgp with hl | hr2
          · rw [hgc] at hl
            exact absurd (Option.some.inj hl) hcp
          · exact hr2
        have hcnep : leftOf t g ≠ some p := by
          rw [hgc]
          exact fun hc => hcp (Option.some.inj hc)
        have hscp : (some c : Option Nat) ≠ some p := fun hc => hcp (Option.some.inj hc)
        refine ⟨?_, p, a, ?eq, hp, Or.inr ⟨hrb, hla⟩, ?_, ?_, ?_, ?_, ?_, ?_⟩
        case eq =>
          simp only [detach, hp, hla, hrb, if_neg hab, if_pos rfl, detachGo, hgp, hgc, hgrp,
            exceptPure_eq_ok, exceptOk_bind, if_true, if_neg hscp, if_pos rfl]
          exact rfl
        · simp [hplt, hpg]
        · exact Or.inr ⟨by simp [hplt, hpg], by simp [hanep, hgnep, hpg, hrb]⟩
        · simp
        · intro j hja hjp
          simp [hja, hjp]
        · intro g' hg'
          rw [hgp] at hg'
          obtain rfl : g = g' := Option.some.inj hg'
          refine ⟨by simp, ?_, fun hcon => absurd hcon hcnep,
            fun _ => ⟨by simp [hglt, hgnep], by simp [hgnep]⟩⟩
          intro j hjg hjp
          constructor <;> simp [hjg, hjp]
        · simp [hgp]

/-- Execution of `FlatTree::attach`: with a properly detached reused parent
`p` (no parent, exactly one child) and a target whose parent either lists it
as a child or is absent with the target being the root, `attach` succeeds. -/
theorem attach_ok (t2 : FlatTree) (p target nOrig : Nat)
    (hplt : p < t2.nodes.length) (htlt : target < t2.nodes.length)
    (hpnone : parentOf t2 p = none)
    (hkids : (leftOf t2 p = some nOrig ∧ rightOf t2 p = none) ∨
             (leftOf t2 p = none ∧ rightOf t2 p = some nOrig))
    (htar : (∃ rp, parentOf t2 target = some rp ∧ rp ≠ p ∧
              (leftOf t2 rp = some target ∨ rightOf t2 rp = some target)) ∨
            (parentOf t2 target = none ∧ target = t2.root)) :
    ∃ t3, attach t2 p target = Except.ok t3 := by
  have hb1 : ¬ t2.nodes.length ≤ p := Nat.not_le.mpr hplt
  have hb2 : ¬ t2.nodes.length ≤ target := Nat.not_le.mpr htlt
  rcases htar with ⟨rp, hrp, hrpne, hslot⟩ | ⟨hrp, hrt⟩
  · have hprp : p ≠ rp := fun hc => hrpne hc.symm
    rcases hkids with ⟨hk1, hk2⟩ | ⟨hk1, hk2⟩ <;>
      by_cases hlt : leftOf t2 rp = some target
    · refine ⟨?_, ?h⟩
      case h =>
        simp only [attach, if_neg hb1, hpnone, Option.isSome_none, Bool.false_eq_true,
        if_false, hk1, hk2, exceptOk_bind, exceptPure_eq_ok, if_neg hb2, hrp,
        if_pos hlt, attachStep4, leftOf_setParent, rightOf_setParent, leftOf_setLeft,
        rightOf_setLeft, length_setLeft, if_neg (fun hc : p = rp ∧ rp < t2.nodes.length => hprp hc.1),
        if_pos rfl]
        exact rfl
    · have hrt2 : rightOf t2 rp = some target := hslot.resolve_left hlt
      refine ⟨?_, ?h⟩
      case h =>
        simp only [attach, if_neg hb1, hpnone, Option.isSome_none, Bool.false_eq_true,
        if_false, hk1, hk2, exceptOk_bind, exceptPure_eq_ok, if_neg hb2, hrp,
        if_neg hlt, hrt2, if_pos rfl, attachStep4, leftOf_setParent, rightOf_setParent,
        leftOf_setRight, rightOf_setRight, length_setRight,
        if_neg (fun hc : p = rp ∧ rp < t2.nodes.length => hprp hc.1)]
        exact rfl
    · refine ⟨?_, ?h⟩
      case h =>
        simp only [attach, if_neg hb1, hpnone, Option.isSome_none, Bool.false_eq_true,
        if_false, hk1, hk2, exceptOk_bind, exceptPure_eq_ok, if_neg hb2, hrp,
        if_pos hlt, attachStep4, leftOf_setParent, rightOf_setParent, leftOf_setLeft,
        rightOf_setLeft, length_setLeft, if_neg (fun hc : p = rp ∧ rp < t2.nodes.length => hprp hc.1),
        if_pos rfl]
        exact rfl
    · have hrt2 : rightOf t2 rp = some target := hslot.resolve_left hlt
      refine ⟨?_, ?h⟩
      case h =>
        simp only [attach, if_neg hb1, hpnone, Option.isSome_none, Bool.false_eq_true,
        if_false, hk1, hk2, exceptOk_bind, exceptPure_eq_ok, if_neg hb2, hrp,
        if_neg hlt, hrt2, if_pos rfl, attachStep4, leftOf_setParent, rightOf_setParent,
        leftOf_setRight, rightOf_setRight, length_setRight,
        if_neg (fun hc : p = rp ∧ rp < t2.nodes.length => hprp hc.1)]
        exact rfl
  · have hnn : ¬ target ≠ t2.root := fun hc => hc hrt
    rcases hkids with ⟨hk1, hk2⟩ | ⟨hk1, hk2⟩
    · refine ⟨?_, ?h⟩
      case h =>
        simp only [attach, if_neg hb1, hpnone, Option.isSome_none, Bool.false_eq_true,
        if_false, hk1, hk2, exceptOk_bind, exceptPure_eq_ok, if_neg hb2, hrp,
        if_neg hnn, attachStep4, leftOf_setParent, rightOf_setParent, leftOf_setRoot,
        rightOf_setRoot, if_pos rfl]
        exact rfl
    · refine ⟨?_, ?h⟩
      case h =>
        simp only [attach, if_neg hb1, hpnone, Option.isSome_none, Bool.false_eq_true,
        if_false, hk1, hk2, exceptOk_bind, exceptPure_eq_ok, if_neg hb2, hrp,
        if_neg hnn, attachStep4, leftOf_setParent, rightOf_setParent, leftOf_setRoot,
        rightOf_setRoot, if_pos rfl]
        exact rfl

/-- Claim C5 (amended): on a well-formed binary flat tree with valid
indices, `spr_topology` returns a structured failure exactly when the donor
is the root, the donor equals the recipient, the recipient equals the
donor's parent, or the donor is an ancestor of the recipient (the case
"donor equals the recipient's parent" is subsumed by the ancestor check);
contrary to the claim, a recipient equal to the root is accepted, and a
recipient equal to the donor's parent is rejected.  On all other inputs it
returns success. -/
theorem spr_topology_ok_iff (t : FlatTree) (moving recipient : Nat)
    (hwf : WF t) (hm : moving < t.nodes.length) (hr : recipient < t.nodes.length) :
    (∃ t', spr_topology t moving recipient = Except.ok t') ↔
      (moving ≠ t.root ∧ moving ≠ recipient ∧ parentOf t moving ≠ some recipient ∧
        is_ancestor t moving recipient = false) := by
  have hb1 : ¬ t.nodes.length ≤ moving := Nat.not_le.mpr hm
  have hb2 : ¬ t.nodes.length ≤ recipient := Nat.not_le.mpr hr
  constructor
  · rintro ⟨t', hok⟩
    have h1 : moving ≠ t.root := by
      intro hc
      simp only [spr_topology, if_neg hb1, if_neg hb2, if_pos hc,
        exceptThrow_eq_error] at hok
      exact Except.noConfusion hok
    have h2 : moving ≠ recipient := by
      intro hc
      simp only [spr_topology, if_neg hb1, if_neg hb2, if_neg h1, if_pos hc,
        exceptThrow_eq_error] at hok
      exact Except.noConfusion hok
    obtain ⟨mp, hmp⟩ := hwf.parent_isSome hm h1
    have h3 : parentOf t moving ≠ some recipient := by
      intro hc
      have hmpr : mp = recipient := Option.some.inj (hmp.symm.trans hc)
      simp only [spr_topology, if_neg hb1, if_neg hb2, if_neg h1, if_neg h2, hmp,
        if_pos hmpr, exceptThrow_eq_error] at hok
      exact Except.noConfusion hok
    have h4 : is_ancestor t moving recipient = false := by
      cases hanc : is_ancestor t moving recipient with
      | false => rfl
      | true =>
        have hmpr : mp ≠ recipient := fun hc => h3 (hc ▸ hmp)
        simp only [spr_topology, if_neg hb1, if_neg hb2, if_neg h1, if_neg h2, hmp,
          if_neg hmpr, if_pos hanc, exceptThrow_eq_error] at hok
        exact Except.noConfusion hok
    exact ⟨h1, h2, h3, h4⟩
  · rintro ⟨h1, h2, h3, h4⟩
    obtain ⟨mp, hmp⟩ := hwf.parent_isSome hm h1
    have hmplt : mp < t.nodes.length := hwf.parent_lt hm hmp
    have hmpne : mp ≠ recipient := fun hc => h3 (hc ▸ hmp)
    have hanc : ¬ (is_ancestor t moving recipient = true) := by rw [h4]; exact Bool.noConfusion
    by_cases hsib : (leftOf t mp = some moving ∧ rightOf t mp = some recipient) ∨
        (rightOf t mp = some moving ∧ leftOf t mp = some recipient)
    · refine ⟨t, ?_⟩
      simp only [spr_topology, if_neg hb1, if_neg hb2, if_neg h1, if_neg h2, hmp,
        if_neg hmpne, if_neg hanc, if_pos hsib, exceptPure_eq_ok]
    · obtain ⟨t2, p, s, hdet, hp', hslot, hpnone, hpkids, hlen2, hpars, hgcase, hnonecase⟩ :=
        detach_spec t moving hwf hm h1
      obtain rfl : p = mp := Option.some.inj (hp'.symm.trans hmp)
      -- the recipient is none of the nodes whose pointers `detach` rewired
      have hrecm : recipient ≠ moving := Ne.symm h2
      have hrp_ne : parentOf t recipient ≠ some p := by
        intro hc
        rcases hslot with ⟨hl, hrr⟩ | ⟨hrr, hl⟩ <;>
          rcases hwf.parent_child hr hc with hcl | hcr
        · exact h2 (Option.some.inj (hl.symm.trans hcl))
        · exact hsib (Or.inl ⟨hl, hcr⟩)
        · exact hsib (Or.inr ⟨hrr, hcl⟩)
        · exact h2 (Option.some.inj (hrr.symm.trans hcr))
      have hsp : parentOf t s = some p := by
        rcases hslot with ⟨hl, hrr⟩ | ⟨hrr, hl⟩
        · exact hwf.child_parent hmplt (Or.inr hrr)
        · exact hwf.child_parent hmplt (Or.inl hl)
      have hrs : recipient ≠ s := by
        intro hc
        exact hrp_ne (hc ▸ hsp)
      have hrnp : recipient ≠ p := fun hc => hmpne hc.symm
      have hpar2 : parentOf t2 recipient = parentOf t recipient := hpars recipient hrs hrnp
      have hgoal : ∃ t3, attach t2 p recipient = Except.ok t3 := by
        refine attach_ok t2 p recipient moving (hlen2 ▸ hmplt) (hlen2 ▸ hr) hpnone hpkids ?_
        cases hrpar : parentOf t recipient with
        | some rp =>
          have hrplt : rp < t.nodes.length := hwf.parent_lt hr hrpar
          have hrpne : rp ≠ p := fun hc => hrp_ne (hc ▸ hrpar)
          refine Or.inl ⟨rp, hpar2.trans hrpar, hrpne, ?_⟩
          cases hgpar : parentOf t p with
          | some g =>
            obtain ⟨-, hkids2, hslotL, hslotR⟩ := hgcase g hgpar
            by_cases hrpg : rp = g
            · subst hrpg
              by_cases hlg : leftOf t rp = some p
              · obtain ⟨hLg, hRg⟩ := hslotL hlg
                rcases hwf.parent_child hr hrpar with hcl | hcr
                · exact absurd (Option.some.inj (hlg.symm.trans hcl)) (Ne.symm hrnp)
                · exact Or.inr (hRg.trans hcr)
              · obtain ⟨hRg, hLg⟩ := hslotR hlg
                rcases hwf.parent_child hr hrpar with hcl | hcr
                · exact Or.inl (hLg.trans hcl)
                · rcases hwf.parent_child hmplt hgpar with hml | hmr
                  · exact absurd hml hlg
                  · exact absurd (Option.some.inj (hmr.symm.trans hcr)).symm hrnp
            · obtain ⟨hL, hR⟩ := hkids2 rp hrpg hrpne
              rcases hwf.parent_child hr hrpar with hcl | hcr
              · exact Or.inl (hL.trans hcl)
              · exact Or.inr (hR.trans hcr)
          | none =>
            obtain ⟨-, hkids2⟩ := hnonecase hgpar
            obtain ⟨hL, hR⟩ := hkids2 rp hrpne
            rcases hwf.parent_child hr hrpar with hcl | hcr
            · exact Or.inl (hL.trans hcl)
            · exact Or.inr (hR.trans hcr)
        | none =>
          have hrroot2 : recipient = t.root := hwf.root_of_no_parent hr hrpar
          cases hgpar : parentOf t p with
          | some g =>
            obtain ⟨hroot2, -, -, -⟩ := hgcase g hgpar
            exact Or.inr ⟨hpar2.trans hrpar, hroot2 ▸ hrroot2⟩
          | none =>
            have : p = t.root := hwf.root_of_no_parent hmplt hgpar
            exact absurd (hrroot2.trans this.symm) hrnp
      obtain ⟨t3, hat⟩ := hgoal
      refine ⟨t3, ?_⟩
      simp only [spr_topology, if_neg hb1, if_neg hb2, if_neg h1, if_neg h2, hmp,
        if_neg hmpne, if_neg hanc, if_neg hsib, hdet, exceptOk_bind, hat]

/-- Witness for claim C5 (amended theorem) at a concrete input. -/
theorem spr_topology_ok_iff_witness :
    (WF sampleTree5 ∧ 2 < sampleTree5.nodes.length ∧ 4 < sampleTree5.nodes.length) ∧
    ((∃ t', spr_topology sampleTree5 2 4 = Except.ok t') ↔
      (2 ≠ sampleTree5.root ∧ 2 ≠ 4 ∧ parentOf sampleTree5 2 ≠ some 4 ∧
        is_ancestor sampleTree5 2 4 = false)) :=
  ⟨⟨by decide, by decide, by decide⟩,
    spr_topology_ok_iff sampleTree5 2 4 (by decide) (by decide) (by decide)⟩

/-- Contract model of Rust std `slice::binary_search_by` (an external
standard-library function) on a sorted slice: `(true, i)` is `Ok(i)` with
`l[i] = v`, `(false, i)` is `Err(i)` with `i` the insertion point.  For a
sorted, deduplicated slice both are uniquely determined, which is how every
call site in the sources uses it. -/
def binary_search (l : List ℚ) (v : ℚ) : Bool × Nat :=
  let ip := l.countP (fun x => x < v)
  if ip < l.length ∧ l.getD ip 0 = v then (true, ip) else (false, ip)

/-- Embedding of `FlatTree::find_closest_index`
(src/metric_functions.rs lines 144-162). -/
def find_closest_index (depths : List ℚ) (value : ℚ) : Nat :=
  match binary_search depths value with
  | (true, idx) => idx
  | (false, idx) =>
    if idx = 0 then 0
    else if idx = depths.length then depths.length - 1
    else if |value - depths.getD (idx - 1) 0| < |value - depths.getD idx 0| then idx - 1
    else idx

/-- Ascending insertion of one element into a sorted list: used to model the
external `sort_by(partial_cmp)` call of `make_subdivision`. -/
def insertSortedQ (x : ℚ) : List ℚ → List ℚ
  | [] => [x]
  | y :: ys => if x ≤ y then x :: y :: ys else y :: insertSortedQ x ys

/-- Model of `Vec::sort_by` with the `partial_cmp` comparator (ascending
order) as an insertion sort: same sorted result on NaN-free input. -/
def sortQ : List ℚ → List ℚ
  | [] => []
  | x :: xs => insertSortedQ x (sortQ xs)

/-- Model of `Vec::dedup`: removes consecutive duplicates. -/
def dedupSorted : List ℚ → List ℚ
  | [] => []
  | [x] => [x]
  | x :: y :: rest => if x = y then dedupSorted (y :: rest) else x :: dedupSorted (y :: rest)

/-- Embedding of `FlatTree::make_subdivision`
(src/metric_functions.rs lines 107-123): collect the assigned depths, sort,
dedup. -/
def FlatTree.make_subdivision (t : FlatTree) : List ℚ :=
  dedupSorted (sortQ (t.nodes.filterMap (fun node => node.depth)))

/-- Embedding of `FlatTree::make_intervals`
(src/metric_functions.rs lines 124-143): `none` models the usize-underflow
panic of `depths.len() - 1` on an empty subdivision. -/
def FlatTree.make_intervals (t : FlatTree) : Option (List ℚ) :=
  let depths := t.make_subdivision
  if depths.isEmpty then none
  else some (0 :: List.zipWith (fun a b => a - b) (depths.drop 1) depths)

/-- Index-aware in-place map, modelling the per-interval pushes of
`find_contemporaneity`. -/
def mapWithIndex {α : Type} (f : Nat → α → α) : Nat → List α → List α
  | _, [] => []
  | k, a :: as => f k a :: mapWithIndex f (k + 1) as

/-- Embedding of `FlatTree::find_contemporaneity`
(src/metric_functions.rs lines 171-188): for each node, its edge is pushed
onto every interval from just after its snapped start index up to its
snapped end index.  `none` models the `expect` panic on a missing depth. -/
def find_contemporaneity (t : FlatTree) (depths : List ℚ) : Option (List (List Nat)) :=
  if t.nodes.all (fun node => node.depth.isSome) then
    some ((List.range t.nodes.length).foldl
      (fun acc i =>
        let node := t.get i
        let node_depth := node.depth.getD 0
        let start_time := node_depth - node.length
        let end_time := node_depth
        let start_index := find_closest_index depths start_time
        let end_index := find_closest_index depths end_time
        mapWithIndex (fun j c => if start_index < j ∧ j ≤ end_index then c ++ [i] else c) 0 acc)
      (List.replicate depths.length []))
  else none

/-- Embedding of `compute_interval_intensity`
(src/bin/gene_transfer_script.rs lines 26-30): missing rate indices
contribute `0.0` (`unwrap_or(0.0)`). -/
def compute_interval_intensity (contemporaneity : List (List Nat))
    (transfer_rates : List ℚ) : List ℚ :=
  contemporaneity.map (fun species_indices =>
    (species_indices.map (fun i => transfer_rates.getD i 0)).sum)

/-- Running sums, modelling the `cdf.push(cdf[i-1] + ...)` loop of
`make_cdf`. -/
def cumsum : ℚ → List ℚ → List ℚ
  | _, [] => []
  | acc, p :: ps => (acc + p) :: cumsum (acc + p) ps

/-- Embedding of `make_cdf` (src/bin/gene_transfer_script.rs lines 42-54):
cumulative sums of `intervals[i] * transfer_intensity[i]`, normalized by the
final entry.  `none` models the index panics on an empty `intervals` or a
shorter `transfer_intensity`. -/
def make_cdf (intervals transfer_intensity : List ℚ) : Option (List ℚ) :=
  if 1 ≤ intervals.length ∧ intervals.length ≤ transfer_intensity.length then
    let cdf := cumsum 0 (List.zipWith (fun a b => a * b) intervals transfer_intensity)
    let total_value := cdf.getD (intervals.length - 1) 0
    some (cdf.map (fun x => x / total_value))
  else none

/-- Model of the external `StdRng` (rand crate): a deterministic stream of
unit-interval draws indexed by position; each draw advances the position.
Reproducibility of the stream from the 64-bit seed is the rand crate's
contract. -/
structure Rng where
  stream : Nat → ℚ
  pos : Nat

/-- One uniform draw in `[0,1)` (`rng.gen_range(0.0..1.0)`). -/
def Rng.next (g : Rng) : ℚ × Rng := (g.stream g.pos, ⟨g.stream, g.pos + 1⟩)

/-- Model of `rng.gen_range(0..n)`: scale a unit draw, guaranteed `< n` for
positive `n`. -/
def Rng.genRangeNat (g : Rng) (n : Nat) : Nat × Rng :=
  let (q, g') := g.next
  (min (Int.toNat ⌊q * n⌋) (n - 1), g')

/-- Streams whose draws all lie in `[0,1)` — the rand contract for
`gen_range(0.0..1.0)`. -/
def Rng.WellFormed (g : Rng) : Prop := ∀ k, 0 ≤ g.stream k ∧ g.stream k < 1

/-- Model of the rand crate's `WeightedIndex`: the stored weight table. -/
structure WeightedIndex where
  weights : List ℚ
deriving DecidableEq, Repr

/-- Model of `WeightedIndex::new`: errors (here `none`) on an empty table, a
negative weight, or a zero total, per the rand crate's documentation. -/
def WeightedIndex.new (w : List ℚ) : Option WeightedIndex :=
  if w ≠ [] ∧ (∀ x ∈ w, 0 ≤ x) ∧ 0 < w.sum then some ⟨w⟩ else none

/-- Pick the first index whose cumulative weight exceeds the scaled draw. -/
def weightedPick : ℚ → List ℚ → Nat
  | _, [] => 0
  | x, w :: ws => if x < w then 0 else weightedPick (x - w) ws + 1

/-- Model of `rng.sample(weighted)` for a `WeightedIndex`. -/
def WeightedIndex.sample (wi : WeightedIndex) (g : Rng) : Nat × Rng :=
  let (q, g') := g.next
  (weightedPick (q * wi.weights.sum) wi.weights, g')

/-- Embedding of `random_pair_with_weights`
(src/bin/gene_transfer_script.rs lines 80-97). -/
def random_pair_with_weights (contemporaneous_species : List Nat)
    (weighted : WeightedIndex) (g : Rng) : Option (Nat × Nat) × Rng :=
  let n := contemporaneous_species.length
  if n < 2 then (none, g)
  else
    let (donor_idx, g1) := weighted.sample g
    let donor := contemporaneous_species.getD donor_idx 0
    let (rand_idx, g2) := g1.genRangeNat (n - 1)
    let receiver_idx := if donor_idx ≤ rand_idx then rand_idx + 1 else rand_idx
    let receiver := contemporaneous_species.getD receiver_idx 0
    (some (donor, receiver), g2)

/-- Modelled from the spec: `random_pair` is called by `generate_transfers`
(src/bin/gene_transfer_script.rs line 119) but its definition is not among
the sources.  Spec §4.E step 3 describes the unweighted draw: a donor from
the contemporaneity class, then a receiver drawn uniformly in
`[0, |set| - 1)` and shifted by one at or past the donor's position. -/
def random_pair (contemporaneous_species : List Nat) (g : Rng) :
    Option (Nat × Nat) × Rng :=
  let n := contemporaneous_species.length
  if n < 2 then (none, g)
  else
    let (donor_idx, g1) := g.genRangeNat n
    let donor := contemporaneous_species.getD donor_idx 0
    let (rand_idx, g2) := g1.genRangeNat (n - 1)
    let receiver_idx := if donor_idx ≤ rand_idx then rand_idx + 1 else rand_idx
    let receiver := contemporaneous_species.getD receiver_idx 0
    (some (donor, receiver), g2)

/-- Embedding of `choose_from_cdf` (src/bin/gene_transfer_script.rs lines
56-70): `none` models the explicit panic when the draw exceeds the CDF range
and the usize-underflow panic of `cdf[index - 1]` when the search lands on
index 0. -/
def choose_from_cdf (cdf depths : List ℚ) (g : Rng) : Option ((ℚ × Nat) × Rng) :=
  let (r, g') := g.next
  let found : Option Nat :=
    match binary_search cdf r with
    | (true, i) => some i
    | (false, i) => if i = cdf.length then none else some i
  match found with
  | none => none
  | some index =>
    if index = 0 then none
    else
      let depth := (r - cdf.getD (index - 1) 0) /
          (cdf.getD index 0 - cdf.getD (index - 1) 0) *
          (depths.getD index 0 - depths.getD (index - 1) 0) + depths.getD (index - 1) 0
      some ((depth, index), g')

/-- Insertion into a time-ascending list, keeping earlier entries first
among equal times. -/
def sortInsertByTime (tr : Nat × Nat × ℚ) :
    List (Nat × Nat × ℚ) → List (Nat × Nat × ℚ)
  | [] => [tr]
  | y :: ys => if y.2.2 ≤ tr.2.2 then y :: sortInsertByTime tr ys else tr :: y :: ys

/-- Model of `transfers.sort_by(partial_cmp on time)` (a stable ascending
sort) as an insertion sort. -/
def sortByTime (l : List (Nat × Nat × ℚ)) : List (Nat × Nat × ℚ) :=
  l.foldr sortInsertByTime []

/-- The draw loop of `generate_transfers`
(src/bin/gene_transfer_script.rs lines 108-123). -/
def generate_transfers_loop (contemporaneity : List (List Nat))
    (weighted_indices : List (Option WeightedIndex)) (cdf depths : List ℚ)
    (use_weighed_sampling : Bool) :
    Nat → Rng → Option (List (Nat × Nat × ℚ) × Rng)
  | 0, g => some ([], g)
  | n + 1, g => do
    let ((depth, index), g1) ← choose_from_cdf cdf depths g
    let contemporaneous_species := contemporaneity.getD index []
    let weighted ← weighted_indices.getD index none
    let (pr, g2) :=
      if use_weighed_sampling then
        random_pair_with_weights contemporaneous_species weighted g1
      else
        random_pair contemporaneous_species g1
    let (rest, g3) ← generate_transfers_loop contemporaneity weighted_indices cdf depths
      use_weighed_sampling n g2
    some ((match pr with
      | some (donor, receiver) => [(donor, receiver, depth)]
      | none => []) ++ rest, g3)

/-- Embedding of `generate_transfers`
(src/bin/gene_transfer_script.rs lines 99-126): draw `n_transfers` times,
then sort the emitted transfers by ascending time.  `none` models the panics
(CDF range, missing weighted index). -/
def generate_transfers (n_transfers : Nat) (contemporaneity : List (List Nat))
    (weighted_indices : List (Option WeightedIndex)) (cdf depths : List ℚ)
    (g : Rng) (use_weighed_sampling : Bool) :
    Option (List (Nat × Nat × ℚ) × Rng) :=
  (generate_transfers_loop contemporaneity weighted_indices cdf depths
    use_weighed_sampling n_transfers g).map (fun pr => (sortByTime pr.1, pr.2))

/-- The weighted-index precomputation of `main`
(src/bin/gene_transfer_script.rs lines 318-328): one optional distribution
per interval, present exactly when the class has at least two members;
`none` models the `unwrap` panic on an invalid weight table. -/
def buildWeightedIndices (contemporaneity : List (List Nat))
    (transfer_rates : List ℚ) : Option (List (Option WeightedIndex)) :=
  contemporaneity.mapM (fun species_vec =>
    if 2 ≤ species_vec.length then
      (WeightedIndex.new (species_vec.map (fun i => transfer_rates.getD i 0))).map some
    else some none)

/-- The SPR application loop of `one_gene_sim_to_string`
(src/bin/gene_transfer_script.rs lines 202-204). -/
def apply_transfers : FlatTree → List (Nat × Nat × ℚ) → Option FlatTree
  | t, [] => some t
  | t, (donor, recipient, time) :: rest => do
    let t' ← spr t donor recipient time
    apply_transfers t' rest

/-- The pure core of the gene-tree pipeline wired by `main` and
`one_gene_sim_to_string` (src/bin/gene_transfer_script.rs): subdivision,
intervals, contemporaneity, intensities, CDF, weighted indices, transfer
drawing, and SPR application. -/
def run_gene_pipeline (t : FlatTree) (transfer_rates : List ℚ) (n_transfers : Nat)
    (g : Rng) (use_weighed_sampling : Bool) :
    Option (List (Nat × Nat × ℚ) × FlatTree) := do
  let depths := t.make_subdivision
  let intervals ← t.make_intervals
  let contemporaneity ← find_contemporaneity t depths
  let intensities := compute_interval_intensity contemporaneity transfer_rates
  let cdf ← make_cdf intervals intensities
  let weighted_indices ← buildWeightedIndices contemporaneity transfer_rates
  let (transfers, _) ← generate_transfers n_transfers contemporaneity weighted_indices cdf
    depths g use_weighed_sampling
  let t' ← apply_transfers t transfers
  some (transfers, t')

theorem getD_mem_of_lt {α : Type} (l : List α) (k : Nat) (d : α) (hk : k < l.length) :
    l.getD k d ∈ l := by
  induction l generalizing k with
  | nil => exact absurd hk (by simp)
  | cons x xs ih =>
    cases k with
    | zero => exact List.mem_cons_self x xs
    | succ k => exact List.mem_cons_of_mem x (ih k (Nat.lt_of_succ_lt_succ hk))

/-- In a strictly sorted list, position `k` holds a value below `v` exactly
when `k` is below the insertion point of `v`. -/
theorem sorted_countP_spec (v : ℚ) :
    ∀ (l : List ℚ), l.Pairwise (· < ·) →
      ∀ k, k < l.length → (l.getD k 0 < v ↔ k < l.countP (fun x => x < v))
  | [], _, k, hk => absurd hk (by simp)
  | x :: xs, hs, k, hk => by
    rw [List.countP_cons]
    by_cases hx : x < v
    · simp only [hx, decide_eq_true_eq, if_pos hx]
      cases k with
      | zero =>
        simp only [List.getD_cons_zero]
        exact ⟨fun _ => Nat.succ_pos _, fun _ => hx⟩
      | succ k =>
        have hk' : k < xs.length := Nat.lt_of_succ_lt_succ hk
        have := sorted_countP_spec v xs hs.of_cons k hk'
        simpa [Nat.succ_lt_succ_iff] using this
    · have hxs : ∀ y ∈ xs, ¬ y < v := by
        intro y hy hyv
        exact hx (lt_trans (List.rel_of_pairwise_cons hs hy) hyv)
      have hc0 : xs.countP (fun x => x < v) = 0 := by
        rw [List.countP_eq_zero]
        intro y hy
        simpa using hxs y hy
      simp only [hc0, Nat.zero_add, decide_eq_true_eq, if_neg hx, Nat.add_zero,
        Nat.not_lt_zero, iff_false]
      cases k with
      | zero => simpa using hx
      | succ k =>
        have hk' : k < xs.length := Nat.lt_of_succ_lt_succ hk
        have hmem := getD_mem_of_lt xs k 0 hk'
        simpa using hxs _ hmem

/-- In a strictly sorted list, a present value sits exactly at its insertion
point. -/
theorem sorted_countP_present (v : ℚ) :
    ∀ (l : List ℚ), l.Pairwise (· < ·) → v ∈ l →
      l.countP (fun x => x < v) < l.length ∧
        l.getD (l.countP (fun x => x < v)) 0 = v
  | [], _, hv => absurd hv (by simp)
  | x :: xs, hs, hv => by
    rw [List.countP_cons]
    rcases List.mem_cons.mp hv with rfl | hvxs
    · have hx : ¬ v < v := lt_irrefl v
      have hc0 : xs.countP (fun y => y < v) = 0 := by
        rw [List.countP_eq_zero]
        intro y hy
        simp only [decide_eq_true_eq]
        exact fun hc => absurd (List.rel_of_pairwise_cons hs hy) (fun h2 => lt_asymm h2 hc)
      simp [hx, hc0]
    · have hxv : x < v := List.rel_of_pairwise_cons hs hvxs
      obtain ⟨hlt, hget⟩ := sorted_countP_present v xs hs.of_cons hvxs
      simp only [hxv, decide_eq_true_eq, if_pos hxv]
      exact ⟨by simpa [Nat.succ_lt_succ_iff] using hlt, by simpa using hget⟩

theorem countP_lt_mono (l : List ℚ) (u v : ℚ) (huv : u ≤ v) :
    l.countP (fun x => x < u) ≤ l.countP (fun x => x < v) := by
  induction l with
  | nil => simp
  | cons x xs ih =>
    rw [List.countP_cons, List.countP_cons]
    by_cases hx : x < u
    · simp only [hx, decide_eq_true_eq, if_pos hx, if_pos (lt_of_lt_of_le hx huv)]
      exact Nat.add_le_add ih (le_refl 1)
    · simp only [hx, decide_eq_true_eq, if_neg hx, Nat.add_zero]
      exact le_trans ih (Nat.le_add_right _ _)

theorem mem_insertSortedQ (x y : ℚ) (l : List ℚ) :
    y ∈ insertSortedQ x l ↔ y = x ∨ y ∈ l := by
  induction l with
  | nil => simp [insertSortedQ]
  | cons z zs ih =>
    by_cases h : x ≤ z
    · simp [insertSortedQ, h]
    · simp only [insertSortedQ, if_neg h, List.mem_cons, ih]
      tauto

theorem insertSortedQ_pairwise (x : ℚ) (l : List ℚ) (hs : l.Pairwise (· ≤ ·)) :
    (insertSortedQ x l).Pairwise (· ≤ ·) := by
  induction l with
  | nil => simp [insertSortedQ]
  | cons z zs ih =>
    rw [insertSortedQ]
    by_cases h : x ≤ z
    · rw [if_pos h]
      refine List.Pairwise.cons ?_ hs
      intro y hy
      rcases List.mem_cons.mp hy with rfl | hyz
      · exact h
      · exact le_trans h (List.rel_of_pairwise_cons hs hyz)
    · rw [if_neg h]
      refine List.Pairwise.cons ?_ (ih hs.of_cons)
      intro y hy
      rcases (mem_insertSortedQ x y zs).mp hy with rfl | hyz
      · exact le_of_not_le h
      · exact List.rel_of_pairwise_cons hs hyz

theorem sortQ_pairwise (l : List ℚ) : (sortQ l).Pairwise (· ≤ ·) := by
  induction l with
  | nil => exact List.Pairwise.nil
  | cons x xs ih => exact insertSortedQ_pairwise x (sortQ xs) ih

theorem mem_sortQ (y : ℚ) (l : List ℚ) : y ∈ sortQ l ↔ y ∈ l := by
  induction l with
  | nil => simp [sortQ]
  | cons x xs ih =>
    simp only [sortQ, mem_insertSortedQ, ih, List.mem_cons]

theorem mem_dedupSorted (y : ℚ) : ∀ (l : List ℚ), y ∈ dedupSorted l ↔ y ∈ l
  | [] => by simp [dedupSorted]
  | [x] => by simp [dedupSorted]
  | x :: z :: rest => by
    rw [dedupSorted]
    by_cases hxz : x = z
    · rw [if_pos hxz, mem_dedupSorted y (z :: rest)]
      subst hxz
      simp only [List.mem_cons]
      tauto
    · rw [if_neg hxz]
      simp only [List.mem_cons, mem_dedupSorted y (z :: rest)]

theorem dedupSorted_pairwise : ∀ (l : List ℚ), l.Pairwise (· ≤ ·) →
    (dedupSorted l).Pairwise (· < ·)
  | [], _ => List.Pairwise.nil
  | [x], _ => by simp [dedupSorted]
  | x :: z :: rest, hs => by
    rw [dedupSorted]
    by_cases hxz : x = z
    · rw [if_pos hxz]
      exact dedupSorted_pairwise (z :: rest) hs.of_cons
    · rw [if_neg hxz]
      refine List.Pairwise.cons ?_ (dedupSorted_pairwise (z :: rest) hs.of_cons)
      intro y hy
      have hyz : y ∈ z :: rest := (mem_dedupSorted y (z :: rest)).mp hy
      have hxy : x ≤ y := List.rel_of_pairwise_cons hs hyz
      rcases List.mem_cons.mp hyz with rfl | hyr
      · exact lt_of_le_of_ne hxy hxz
      · have hzy : z ≤ y := List.rel_of_pairwise_cons hs.of_cons hyr
        exact lt_of_lt_of_le
          (lt_of_le_of_ne (List.rel_of_pairwise_cons hs (List.mem_cons_self z rest)) hxz) hzy

theorem make_subdivision_pairwise (t : FlatTree) :
    (t.make_subdivision).Pairwise (· < ·) :=
  dedupSorted_pairwise _ (sortQ_pairwise _)

theorem mem_make_subdivision (t : FlatTree) {i : Nat} {q : ℚ}
    (hq : depthOf t i = some q) (hi : i < t.nodes.length) :
    q ∈ t.make_subdivision := by
  rw [FlatTree.make_subdivision, mem_dedupSorted, mem_sortQ, List.mem_filterMap]
  refine ⟨t.get i, ?_, hq⟩
  unfold FlatTree.get
  exact getD_mem_of_lt _ _ _ hi

/-- `find_closest_index` at a value on the grid of a strictly sorted list:
the search hits exactly, and returns the value's position. -/
theorem find_closest_index_present (l : List ℚ) (hs : l.Pairwise (· < ·)) (v : ℚ)
    (hv : v ∈ l) :
    find_closest_index l v = l.countP (fun x => x < v) ∧
    find_closest_index l v < l.length ∧
    l.getD (find_closest_index l v) 0 = v := by
  obtain ⟨hlt, hget⟩ := sorted_countP_present v l hs hv
  have hhit : binary_search l v = (true, l.countP (fun x => x < v)) := by
    simp only [binary_search]
    rw [if_pos ⟨hlt, hget⟩]
  rw [find_closest_index, hhit]
  exact ⟨rfl, hlt, hget⟩

theorem sorted_getD_lt (l : List ℚ) (hs : l.Pairwise (· < ·)) {i j : Nat}
    (hij : i < j) (hj : j < l.length) : l.getD i 0 < l.getD j 0 := by
  have hi : i < l.length := lt_trans hij hj
  rw [List.getD_eq_getElem l 0 hi, List.getD_eq_getElem l 0 hj]
  exact List.pairwise_iff_get.mp hs ⟨i, hi⟩ ⟨j, hj⟩ hij

theorem sorted_getD_le (l : List ℚ) (hs : l.Pairwise (· < ·)) {i j : Nat}
    (hij : i ≤ j) (hj : j < l.length) : l.getD i 0 ≤ l.getD j 0 := by
  rcases Nat.lt_or_ge i j with h | h
  · exact le_of_lt (sorted_getD_lt l hs h hj)
  · have : i = j := Nat.le_antisymm hij h
    rw [this]

/-- Claim C8 (amended): on a strictly sorted non-empty subdivision,
`find_closest_index` returns a valid index that minimizes the distance
`|subdivision[idx] - v|`; when the value is present it returns its exact
position; and when two candidates are equidistant the tie is broken to the
GREATER index (every equidistant index is ≤ the returned one) — not to the
lower index as the claim states. -/
theorem find_closest_index_spec (l : List ℚ) (hs : l.Pairwise (· < ·)) (hne : l ≠ [])
    (v : ℚ) :
    find_closest_index l v < l.length ∧
    (∀ k, k < l.length → |l.getD (find_closest_index l v) 0 - v| ≤ |l.getD k 0 - v|) ∧
    (∀ k, k < l.length → |l.getD k 0 - v| = |l.getD (find_closest_index l v) 0 - v| →
      k ≤ find_closest_index l v) ∧
    (v ∈ l → l.getD (find_closest_index l v) 0 = v) := by
  have hlen : 0 < l.length := List.length_pos.mpr hne
  by_cases hv : v ∈ l
  · obtain ⟨hfe, hflt, hfget⟩ := find_closest_index_present l hs v hv
    refine ⟨hflt, ?_, ?_, fun _ => hfget⟩
    · intro k hk
      rw [hfget]
      simp only [sub_self, abs_zero]
      exact abs_nonneg _
    · intro k hk htie
      rw [hfget] at htie
      simp only [sub_self, abs_zero, abs_eq_zero, sub_eq_zero] at htie
      by_contra hgt
      push_neg at hgt
      have := sorted_getD_lt l hs hgt hk
      rw [hfget, htie] at this
      exact lt_irrefl _ this
  · -- the value is absent: Err(insertion point)
    set ip := l.countP (fun x => x < v) with hip
    have hiple : ip ≤ l.length := List.countP_le_length _
    have hlow : ∀ k, k < ip → l.getD k 0 < v := by
      intro k hk
      have hkl : k < l.length := lt_of_lt_of_le hk hiple
      exact (sorted_countP_spec v l hs k hkl).mpr hk
    have hhigh : ∀ k, ip ≤ k → k < l.length → v < l.getD k 0 := by
      intro k hk hkl
      have hnlt : ¬ l.getD k 0 < v := fun hc =>
        absurd ((sorted_countP_spec v l hs k hkl).mp hc) (Nat.not_lt.mpr hk)
      rcases lt_or_eq_of_le (le_of_not_lt hnlt) with h | h
      · exact h
      · exact absurd (h ▸ getD_mem_of_lt l k 0 hkl) hv
    have hmiss : binary_search l v = (false, ip) := by
      simp only [binary_search]
      rw [if_neg]
      intro ⟨h1, h2⟩
      exact absurd (h2 ▸ getD_mem_of_lt l ip 0 h1) hv
    simp only [find_closest_index, hmiss]
    by_cases h0 : ip = 0
    · rw [if_pos h0]
      have hvlt : ∀ k, k < l.length → v < l.getD k 0 := fun k hk =>
        hhigh k (h0 ▸ Nat.zero_le k) hk
      refine ⟨hlen, ?_, ?_, fun hc => absurd hc hv⟩
      · intro k hk
        rw [abs_of_pos (sub_pos.mpr (hvlt 0 hlen)), abs_of_pos (sub_pos.mpr (hvlt k hk))]
        have := sorted_getD_le l hs (Nat.zero_le k) hk
        linarith
      · intro k hk htie
        rw [abs_of_pos (sub_pos.mpr (hvlt 0 hlen)), abs_of_pos (sub_pos.mpr (hvlt k hk))]
          at htie
        have hkeq : l.getD k 0 = l.getD 0 0 := by linarith
        by_contra hgt
        push_neg at hgt
        have := sorted_getD_lt l hs hgt hk
        rw [hkeq] at this
        exact lt_irrefl _ this
    · rw [if_neg h0]
      by_cases hL : ip = l.length
      · rw [if_pos hL]
        have hvgt : ∀ k, k < l.length → l.getD k 0 < v := fun k hk =>
          hlow k (hL ▸ hk)
        have hlast : l.length - 1 < l.length := Nat.sub_lt hlen Nat.one_pos
        refine ⟨hlast, ?_, ?_, fun hc => absurd hc hv⟩
        · intro k hk
          rw [abs_of_neg (sub_neg.mpr (hvgt _ hlast)), abs_of_neg (sub_neg.mpr (hvgt k hk))]
          have := sorted_getD_le l hs (Nat.le_sub_one_of_lt hk) hlast
          linarith
        · intro k hk _
          exact Nat.le_sub_one_of_lt hk
      · rw [if_neg hL]
        have hiplt : ip < l.length := lt_of_le_of_ne hiple hL
        have hip1 : ip - 1 < ip := Nat.sub_lt (Nat.pos_of_ne_zero h0) Nat.one_pos
        have hA : l.getD (ip - 1) 0 < v := hlow _ hip1
        have hB : v < l.getD ip 0 := hhigh ip (le_refl ip) hiplt
        have habA : |v - l.getD (ip - 1) 0| = v - l.getD (ip - 1) 0 :=
          abs_of_pos (sub_pos.mpr hA)
        have habB : |v - l.getD ip 0| = l.getD ip 0 - v := by
          rw [abs_of_neg (sub_neg.mpr hB)]
          ring
        have hdistLow : ∀ k, k < ip → v - l.getD (ip - 1) 0 ≤ |l.getD k 0 - v| := by
          intro k hk
          rw [abs_of_neg (sub_neg.mpr (hlow k hk))]
          have := sorted_getD_le l hs (Nat.le_sub_one_of_lt hk) (lt_trans hip1 hiplt)
          linarith
        have hdistHigh : ∀ k, ip ≤ k → k < l.length → l.getD ip 0 - v ≤ |l.getD k 0 - v| := by
          intro k hk hkl
          rw [abs_of_pos (sub_pos.mpr (hhigh k hk hkl))]
          have := sorted_getD_le l hs hk hkl
          linarith
        by_cases hcmp : |v - l.getD (ip - 1) 0| < |v - l.getD ip 0|
        · rw [if_pos hcmp]
          rw [habA, habB] at hcmp
          have habA' : |l.getD (ip - 1) 0 - v| = v - l.getD (ip - 1) 0 := by
            rw [abs_of_neg (sub_neg.mpr hA)]
            ring
          refine ⟨lt_trans hip1 hiplt, ?_, ?_, fun hc => absurd hc hv⟩
          · intro k hk
            rw [habA']
            rcases Nat.lt_or_ge k ip with hki | hki
            · exact hdistLow k hki
            · exact le_trans (le_of_lt hcmp) (hdistHigh k hki hk)
          · intro k hk htie
            rw [habA'] at htie
            rcases Nat.lt_or_ge k ip with hki | hki
            · rw [abs_of_neg (sub_neg.mpr (hlow k hki))] at htie
              have hkeq : l.getD k 0 = l.getD (ip - 1) 0 := by linarith
              by_contra hgt
              push_neg at hgt
              have hkl : k < l.length := lt_of_lt_of_le hki hiple
              have := sorted_getD_lt l hs hgt hkl
              rw [hkeq] at this
              exact lt_irrefl _ this
            · have h1 := hdistHigh k hki hk
              rw [htie] at h1
              exact absurd hcmp (not_lt.mpr h1)
        · rw [if_neg hcmp]
          rw [habA, habB] at hcmp
          push_neg at hcmp
          have habB' : |l.getD ip 0 - v| = l.getD ip 0 - v := abs_of_pos (sub_pos.mpr hB)
          refine ⟨hiplt, ?_, ?_, fun hc => absurd hc hv⟩
          · intro k hk
            rw [habB']
            rcases Nat.lt_or_ge k ip with hki | hki
            · exact le_trans hcmp (hdistLow k hki)
            · exact hdistHigh k hki hk
          · intro k hk htie
            rcases Nat.lt_or_ge k ip with hki | hki
            · exact le_of_lt hki
            · rw [habB', abs_of_pos (sub_pos.mpr (hhigh k hki hk))] at htie
              have hkeq : l.getD k 0 = l.getD ip 0 := by linarith
              by_contra hgt
              push_neg at hgt
              have := sorted_getD_lt l hs hgt hk
              rw [hkeq] at this
              exact lt_irrefl _ this

/-- Claim C8 counterexample: on the sorted subdivision `[0, 2]` and query
`1`, both neighbors are equidistant, and `find_closest_index` returns the
GREATER index `1`, not the lower index `0` stated by the claim. -/
theorem find_closest_index_tie_goes_up :
    find_closest_index [0, 2] 1 = 1 ∧ |(0 : ℚ) - 1| = |(2 : ℚ) - 1| := by
  constructor
  · norm_num [find_closest_index, binary_search, List.countP_cons, List.countP_nil,
      List.getD_cons_zero, List.getD_cons_succ]
  · norm_num

/-- Witness for claim C8 (amended theorem) at a concrete input. -/
theorem find_closest_index_spec_witness :
    (([0, 2] : List ℚ).Pairwise (· < ·) ∧ ([0, 2] : List ℚ) ≠ []) ∧
    (find_closest_index [0, 2] 1 < ([0, 2] : List ℚ).length ∧
      (∀ k, k < ([0, 2] : List ℚ).length →
        |([0, 2] : List ℚ).getD (find_closest_index [0, 2] 1) 0 - 1| ≤
          |([0, 2] : List ℚ).getD k 0 - 1|) ∧
      (∀ k, k < ([0, 2] : List ℚ).length →
        |([0, 2] : List ℚ).getD k 0 - 1| =
          |([0, 2] : List ℚ).getD (find_closest_index [0, 2] 1) 0 - 1| →
        k ≤ find_closest_index [0, 2] 1) ∧
      ((1 : ℚ) ∈ ([0, 2] : List ℚ) →
        ([0, 2] : List ℚ).getD (find_closest_index [0, 2] 1) 0 = 1)) :=
  ⟨⟨by decide, by decide⟩, find_closest_index_spec [0, 2] (by decide) (by decide) 1⟩

theorem length_cumsum (acc : ℚ) (l : List ℚ) : (cumsum acc l).length = l.length := by
  induction l generalizing acc with
  | nil => rfl
  | cons x xs ih => simp [cumsum, ih]

theorem cumsum_getD (acc : ℚ) (l : List ℚ) (k : Nat) (hk : k < l.length) :
    (cumsum acc l).getD k 0 = acc + (l.take (k + 1)).sum := by
  induction l generalizing acc k with
  | nil => exact absurd hk (by simp)
  | cons x xs ih =>
    cases k with
    | zero => simp [cumsum]
    | succ k =>
      have hk' : k < xs.length := Nat.lt_of_succ_lt_succ hk
      simp only [cumsum, List.getD_cons_succ, List.take_succ_cons, List.sum_cons,
        ih (acc + x) k hk']
      ring

theorem sum_take_nonneg (l : List ℚ) (h : ∀ x ∈ l, 0 ≤ x) (j : Nat) :
    0 ≤ (l.take j).sum :=
  List.sum_nonneg fun x hx => h x (List.take_subset j l hx)

theorem sum_take_mono (l : List ℚ) (h : ∀ x ∈ l, 0 ≤ x) :
    ∀ {i j : Nat}, i ≤ j → (l.take i).sum ≤ (l.take j).sum := by
  induction l with
  | nil => intro i j _; simp
  | cons x xs ih =>
    intro i j hij
    cases i with
    | zero =>
      simp only [List.take_zero, List.sum_nil]
      exact sum_take_nonneg (x :: xs) h j
    | succ i =>
      cases j with
      | zero => exact absurd hij (by simp)
      | succ j =>
        simp only [List.take_succ_cons, List.sum_cons]
        have hxs : ∀ y ∈ xs, 0 ≤ y := fun y hy => h y (List.mem_cons_of_mem x hy)
        exact add_le_add_left (ih hxs (Nat.le_of_succ_le_succ hij)) x

theorem zipWith_mul_nonneg : ∀ (a b : List ℚ), (∀ x ∈ a, 0 ≤ x) → (∀ x ∈ b, 0 ≤ x) →
    ∀ x ∈ List.zipWith (fun u v => u * v) a b, 0 ≤ x
  | [], _, _, _ => by simp
  | _ :: _, [], _, _ => by simp
  | a :: as, b :: bs, ha, hb => by
    intro x hx
    rcases List.mem_cons.mp hx with rfl | hx'
    · exact mul_nonneg (ha a (List.mem_cons_self a as)) (hb b (List.mem_cons_self b bs))
    · exact zipWith_mul_nonneg as bs (fun y hy => ha y (List.mem_cons_of_mem a hy))
        (fun y hy => hb y (List.mem_cons_of_mem b hy)) x hx'

theorem sum_take_one (l : List ℚ) (hl : l ≠ []) : (l.take 1).sum = l.getD 0 0 := by
  cases l with
  | nil => exact absurd rfl hl
  | cons x xs => simp

theorem qdiv_mono {a b t : ℚ} (h : a ≤ b) (ht : 0 < t) : a / t ≤ b / t := by
  rw [div_eq_mul_inv, div_eq_mul_inv]
  exact mul_le_mul_of_nonneg_right h (inv_nonneg.mpr ht.le)

theorem getD_map_div (l : List ℚ) (t : ℚ) : ∀ (k : Nat), k < l.length →
    (l.map (fun x => x / t)).getD k 0 = l.getD k 0 / t := by
  induction l with
  | nil => intro k hk; simp at hk
  | cons x xs ih =>
    intro k hk
    cases k with
    | zero => simp
    | succ k => simpa using ih k (Nat.lt_of_succ_lt_succ hk)

/-- Claim C7: for an intervals vector as produced by `make_intervals` (first
entry `0.0`, all entries non-negative) and non-negative interval intensities
of the same length whose weighted total sum is positive, the CDF returned by
`make_cdf` is monotone non-decreasing, starts at exactly 0, and ends at
exactly 1. -/
theorem make_cdf_spec (intervals transfer_intensity : List ℚ) (c : List ℚ)
    (hlen : intervals.length = transfer_intensity.length)
    (h0 : intervals.getD 0 0 = 0)
    (hnn : ∀ x ∈ intervals, 0 ≤ x)
    (hti : ∀ x ∈ transfer_intensity, 0 ≤ x)
    (hpos : 0 < (List.zipWith (fun u v => u * v) intervals transfer_intensity).sum)
    (hc : make_cdf intervals transfer_intensity = some c) :
    c.getD 0 0 = 0 ∧ c.getD (c.length - 1) 0 = 1 ∧
    ∀ i j, i ≤ j → j < c.length → c.getD i 0 ≤ c.getD j 0 := by
  set prods := List.zipWith (fun u v => u * v) intervals transfer_intensity with hprods
  have hplen : prods.length = intervals.length := by
    rw [hprods, List.length_zipWith]
    exact min_eq_left (le_of_eq hlen)
  have hm : 1 ≤ intervals.length := by
    by_contra hc0
    have : intervals.length = 0 := by omega
    have : prods.length = 0 := by rw [hplen, this]
    rw [List.length_eq_zero.mp this] at hpos
    exact lt_irrefl 0 (by simpa using hpos)
  have hprodnn : ∀ x ∈ prods, 0 ≤ x := zipWith_mul_nonneg intervals transfer_intensity hnn hti
  have hcval : c = (cumsum 0 prods).map
      (fun x => x / (cumsum 0 prods).getD (intervals.length - 1) 0) := by
    rw [make_cdf, if_pos ⟨hm, le_of_eq hlen⟩] at hc
    exact (Option.some.inj hc).symm
  have hm1 : intervals.length - 1 < prods.length := by omega
  have htotal : (cumsum 0 prods).getD (intervals.length - 1) 0 = prods.sum := by
    rw [cumsum_getD 0 prods _ hm1, zero_add]
    have : intervals.length - 1 + 1 = prods.length := by omega
    rw [this, List.take_length]
  have htpos : 0 < (cumsum 0 prods).getD (intervals.length - 1) 0 := by
    rw [htotal]; exact hpos
  have hclen : c.length = prods.length := by
    rw [hcval, List.length_map, length_cumsum]
  have hpne : prods ≠ [] := by
    intro hc0
    rw [hc0] at hplen
    simp only [List.length_nil] at hplen
    omega
  have hgetc : ∀ k, k < prods.length →
      c.getD k 0 = (0 + (prods.take (k + 1)).sum) /
        (cumsum 0 prods).getD (intervals.length - 1) 0 := by
    intro k hk
    rw [hcval, getD_map_div _ _ k (by rwa [length_cumsum]), cumsum_getD 0 prods k hk]
  refine ⟨?_, ?_, ?_⟩
  · rw [hgetc 0 (by omega : 0 < prods.length), zero_add, sum_take_one prods hpne]
    have hp0 : prods.getD 0 0 = 0 := by
      rcases intervals with _ | ⟨a, as⟩
      · simp at hm
      · rcases transfer_intensity with _ | ⟨b, bs⟩
        · simp at hlen
        · simp only [List.getD_cons_zero] at h0
          simp [hprods, h0]
    rw [hp0, zero_div]
  · rw [hclen, hplen, hgetc (intervals.length - 1) hm1, zero_add]
    have : intervals.length - 1 + 1 = prods.length := by omega
    rw [this, List.take_length, ← htotal]
    exact div_self (ne_of_gt htpos)
  · intro i j hij hj
    rw [hclen] at hj
    rw [hgetc i (lt_of_le_of_lt hij hj), hgetc j hj, zero_add, zero_add]
    exact qdiv_mono (sum_take_mono prods hprodnn (Nat.succ_le_succ hij)) htpos

/-- Witness for claim C7 at a concrete input. -/
theorem make_cdf_spec_witness :
    (([0, 1] : List ℚ).length = ([1, 1] : List ℚ).length ∧
      ([0, 1] : List ℚ).getD 0 0 = 0 ∧
      (∀ x ∈ ([0, 1] : List ℚ), 0 ≤ x) ∧
      (∀ x ∈ ([1, 1] : List ℚ), 0 ≤ x) ∧
      0 < (List.zipWith (fun u v => u * v) ([0, 1] : List ℚ) [1, 1]).sum ∧
      make_cdf [0, 1] [1, 1] = some [0, 1]) ∧
    (([0, 1] : List ℚ).getD 0 0 = 0 ∧
      ([0, 1] : List ℚ).getD (([0, 1] : List ℚ).length - 1) 0 = 1 ∧
      ∀ i j, i ≤ j → j < ([0, 1] : List ℚ).length →
        ([0, 1] : List ℚ).getD i 0 ≤ ([0, 1] : List ℚ).getD j 0) := by
  have h1 : ([0, 1] : List ℚ).length = ([1, 1] : List ℚ).length := by decide
  have h2 : ([0, 1] : List ℚ).getD 0 0 = 0 := by decide
  have h3 : ∀ x ∈ ([0, 1] : List ℚ), 0 ≤ x := by decide
  have h4 : ∀ x ∈ ([1, 1] : List ℚ), 0 ≤ x := by decide
  have h5 : 0 < (List.zipWith (fun u v => u * v) ([0, 1] : List ℚ) [1, 1]).sum := by
    norm_num [List.zipWith]
  have h6 : make_cdf [0, 1] [1, 1] = some [0, 1] := by
    norm_num [make_cdf, List.zipWith, cumsum, List.getD_cons_succ, List.getD_cons_zero]
  exact ⟨⟨h1, h2, h3, h4, h5, h6⟩,
    make_cdf_spec [0, 1] [1, 1] [0, 1] h1 h2 h3 h4 h5 h6⟩

/-- The per-node accumulator update of `find_contemporaneity`, named for
reasoning; definitionally equal to the closure folded inside the embedding. -/
def contStep (t : FlatTree) (depths : List ℚ) (acc : List (List Nat)) (i : Nat) :
    List (List Nat) :=
  let node := t.get i
  let node_depth := node.depth.getD 0
  let start_time := node_depth - node.length
  let end_time := node_depth
  let start_index := find_closest_index depths start_time
  let end_index := find_closest_index depths end_time
  mapWithIndex (fun j c => if start_index < j ∧ j ≤ end_index then c ++ [i] else c) 0 acc

theorem find_contemporaneity_eq (t : FlatTree) (depths : List ℚ) :
    find_contemporaneity t depths =
      if t.nodes.all (fun node => node.depth.isSome) then
        some ((List.range t.nodes.length).foldl (contStep t depths)
          (List.replicate depths.length []))
      else none := rfl

theorem mapWithIndex_length {α : Type} (f : Nat → α → α) :
    ∀ (k : Nat) (l : List α), (mapWithIndex f k l).length = l.length
  | _, [] => rfl
  | k, a :: as => by simp [mapWithIndex, mapWithIndex_length f (k + 1) as]

theorem mapWithIndex_getD {α : Type} (f : Nat → α → α) (d : α) :
    ∀ (k : Nat) (l : List α) (j : Nat), j < l.length →
      (mapWithIndex f k l).getD j d = f (k + j) (l.getD j d)
  | _, [], _, hj => absurd hj (by simp)
  | k, a :: as, 0, _ => by simp [mapWithIndex]
  | k, a :: as, j + 1, hj => by
    simp only [mapWithIndex, List.getD_cons_succ]
    rw [mapWithIndex_getD f d (k + 1) as j (Nat.lt_of_succ_lt_succ hj)]
    congr 1
    omega

theorem contStep_length (t : FlatTree) (depths : List ℚ) (acc : List (List Nat))
    (i : Nat) : (contStep t depths acc i).length = acc.length :=
  mapWithIndex_length _ 0 acc

theorem contStep_getD (t : FlatTree) (depths : List ℚ) (acc : List (List Nat))
    (i j : Nat) (hj : j < acc.length) :
    (contStep t depths acc i).getD j [] =
      if find_closest_index depths (dval t i - lengthOf t i) < j ∧
          j ≤ find_closest_index depths (dval t i) then
        acc.getD j [] ++ [i]
      else acc.getD j [] := by
  have h := mapWithIndex_getD
    (fun j c => if find_closest_index depths (dval t i - lengthOf t i) < j ∧
        j ≤ find_closest_index depths (dval t i) then c ++ [i] else c) [] 0 acc j hj
  rw [Nat.zero_add] at h
  exact h

theorem foldl_contStep_length (t : FlatTree) (depths : List ℚ) :
    ∀ (L : List Nat) (acc : List (List Nat)),
      (L.foldl (contStep t depths) acc).length = acc.length
  | [], _ => rfl
  | a :: L, acc => by
    rw [List.foldl_cons, foldl_contStep_length t depths L, contStep_length]

theorem foldl_contStep_getD (t : FlatTree) (depths : List ℚ) (j : Nat) :
    ∀ (L : List Nat) (acc : List (List Nat)), j < acc.length →
      (L.foldl (contStep t depths) acc).getD j [] =
        acc.getD j [] ++ L.filter (fun i =>
          decide (find_closest_index depths (dval t i - lengthOf t i) < j ∧
            j ≤ find_closest_index depths (dval t i)))
  | [], _, _ => by simp
  | a :: L, acc, hj => by
    rw [List.foldl_cons,
      foldl_contStep_getD t depths j L (contStep t depths acc a)
        (by rw [contStep_length]; exact hj),
      contStep_getD t depths acc a j hj, List.filter_cons]
    by_cases hq : find_closest_index depths (dval t a - lengthOf t a) < j ∧
        j ≤ find_closest_index depths (dval t a)
    · rw [if_pos hq, if_pos (decide_eq_true hq), List.append_assoc,
        List.singleton_append]
    · rw [if_neg hq, if_neg (fun h => hq (of_decide_eq_true h))]

theorem getD_replicate {α : Type} : ∀ (n k : Nat) (d : α),
    (List.replicate n d).getD k d = d
  | 0, _, _ => rfl
  | _ + 1, 0, _ => rfl
  | n + 1, k + 1, d => getD_replicate n k d

theorem filter_below_zero (t : FlatTree) (depths : List ℚ) :
    ∀ L : List Nat, L.filter (fun i =>
      decide (find_closest_index depths (dval t i - lengthOf t i) < 0 ∧
        0 ≤ find_closest_index depths (dval t i))) = []
  | [] => rfl
  | a :: L => by
    rw [List.filter_cons, if_neg, filter_below_zero t depths L]
    intro h
    exact absurd (of_decide_eq_true h).1 (Nat.not_lt_zero _)

/-- Claim C6: on a tree whose nodes all carry assigned depths, against a
strictly sorted subdivision grid that contains the exact start time
`depth(v) - length(v)` and end time `depth(v)` of the node `v` (no snapping
needed), `find_contemporaneity` returns classes with
`v ∈ contemporaneity[j] ↔ subdivision[j-1] ∈ [start(v), end(v))` for every
interval index `1 ≤ j < m`, and the class at index `0` is always empty. -/
theorem find_contemporaneity_spec (t : FlatTree) (depths : List ℚ)
    (cont : List (List Nat)) (v j : Nat)
    (hall : t.nodes.all (fun node => node.depth.isSome) = true)
    (hsorted : depths.Pairwise (· < ·))
    (hcont : find_contemporaneity t depths = some cont)
    (hv : v < t.nodes.length)
    (hj1 : 1 ≤ j) (hj : j < depths.length)
    (hstart : dval t v - lengthOf t v ∈ depths)
    (hend : dval t v ∈ depths) :
    cont.getD 0 [] = [] ∧
    (v ∈ cont.getD j [] ↔
      dval t v - lengthOf t v ≤ depths.getD (j - 1) 0 ∧
        depths.getD (j - 1) 0 < dval t v) := by
  rw [find_contemporaneity_eq, if_pos hall] at hcont
  have hcval : cont = (List.range t.nodes.length).foldl (contStep t depths)
      (List.replicate depths.length []) := (Option.some.inj hcont).symm
  obtain ⟨hsieq, hsilt, hsiget⟩ := find_closest_index_present depths hsorted _ hstart
  obtain ⟨heieq, heilt, heiget⟩ := find_closest_index_present depths hsorted _ hend
  constructor
  · rw [hcval,
      foldl_contStep_getD t depths 0 _ _ (by rw [List.length_replicate]; omega),
      getD_replicate, List.nil_append, filter_below_zero]
  · rw [hcval,
      foldl_contStep_getD t depths j _ _ (by rw [List.length_replicate]; exact hj),
      getD_replicate, List.nil_append, List.mem_filter, List.mem_range,
      decide_eq_true_eq]
    constructor
    · rintro ⟨-, hsj, hje⟩
      refine ⟨?_, ?_⟩
      · calc dval t v - lengthOf t v
            = depths.getD (find_closest_index depths (dval t v - lengthOf t v)) 0 :=
              hsiget.symm
          _ ≤ depths.getD (j - 1) 0 :=
              sorted_getD_le depths hsorted (by omega) (by omega)
      · calc depths.getD (j - 1) 0
            < depths.getD (find_closest_index depths (dval t v)) 0 :=
              sorted_getD_lt depths hsorted (by omega) heilt
          _ = dval t v := heiget
    · rintro ⟨hge, hlt⟩
      refine ⟨hv, ?_, ?_⟩
      · by_contra h
        push_neg at h
        have hlt2 : depths.getD (j - 1) 0 <
            depths.getD (find_closest_index depths (dval t v - lengthOf t v)) 0 :=
          sorted_getD_lt depths hsorted (by omega) hsilt
        rw [hsiget] at hlt2
        exact absurd hge (not_le.mpr hlt2)
      · by_contra h
        push_neg at h
        have hle2 : depths.getD (find_closest_index depths (dval t v)) 0 ≤
            depths.getD (j - 1) 0 :=
          sorted_getD_le depths hsorted (by omega) (by omega)
        rw [heiget] at hle2
        exact absurd hlt (not_lt.mpr hle2)

/-- A one-node tree used to witness the contemporaneity claim. -/
def contTree : FlatTree :=
  ⟨[⟨"A", none, none, none, some 1, 1⟩], 0⟩

/-- Witness for claim C6 at a concrete input. -/
theorem find_contemporaneity_spec_witness :
    ((contTree.nodes.all (fun node => node.depth.isSome) = true) ∧
      ([0, 1] : List ℚ).Pairwise (· < ·) ∧
      find_contemporaneity contTree [0, 1] = some [[], [0]] ∧
      0 < contTree.nodes.length ∧ 1 ≤ 1 ∧ 1 < ([0, 1] : List ℚ).length ∧
      dval contTree 0 - lengthOf contTree 0 ∈ ([0, 1] : List ℚ) ∧
      dval contTree 0 ∈ ([0, 1] : List ℚ)) ∧
    (([[], [0]] : List (List Nat)).getD 0 [] = [] ∧
      (0 ∈ ([[], [0]] : List (List Nat)).getD 1 [] ↔
        dval contTree 0 - lengthOf contTree 0 ≤ ([0, 1] : List ℚ).getD 0 0 ∧
          ([0, 1] : List ℚ).getD 0 0 < dval contTree 0)) := by
  have h1 : contTree.nodes.all (fun node => node.depth.isSome) = true := by decide
  have h2 : ([0, 1] : List ℚ).Pairwise (· < ·) := by decide
  have h7 : dval contTree 0 - lengthOf contTree 0 ∈ ([0, 1] : List ℚ) := by
    norm_num [dval, depthOf, lengthOf, FlatTree.get, contTree]
  have h8 : dval contTree 0 ∈ ([0, 1] : List ℚ) := by
    norm_num [dval, depthOf, FlatTree.get, contTree]
  have h3 : find_contemporaneity contTree [0, 1] = some [[], [0]] := by
    rw [find_contemporaneity_eq, if_pos h1]
    norm_num [contTree, contStep, mapWithIndex, find_closest_index, binary_search,
      FlatTree.get, List.range_succ, List.countP_cons, List.countP_nil]
  exact ⟨⟨h1, h2, h3, by decide, le_refl 1, by decide, h7, h8⟩,
    find_contemporaneity_spec contTree [0, 1] [[], [0]] 0 1 h1 h2 h3
      (by decide) (le_refl 1) (by decide) h7 h8⟩

theorem option_eq_some_getD {α : Type} (o : Option α) (d : α) (h : o.isSome = true) :
    o = some (o.getD d) := by
  cases o with
  | none => exact absurd h (by simp)
  | some a => rfl

theorem isAncestorLoop_depth_le (t : FlatTree) (hwf : WF t) (htwf : TimeWF t)
    (a b : Nat) :
    ∀ (fuel : Nat) (cur : Nat), cur < t.nodes.length →
      isAncestorLoop t a b fuel (some cur) = true → dval t a ≤ dval t cur
  | 0, cur, _, h => by simp [isAncestorLoop] at h
  | fuel + 1, cur, hcur, h => by
    simp only [isAncestorLoop] at h
    by_cases h1 : cur = a
    · subst h1; exact le_refl _
    rw [if_neg h1] at h
    by_cases h2 : cur = t.root ∧ (parentOf t t.root).isSome
    · rw [if_pos h2] at h; exact absurd h (by simp)
    rw [if_neg h2] at h
    by_cases h3 : cur = b
    · rw [if_pos h3] at h; exact absurd h (by simp)
    rw [if_neg h3] at h
    cases hp : parentOf t cur with
    | none => rw [hp] at h; simp [isAncestorLoop] at h
    | some p =>
      rw [hp] at h
      have hplt := hwf.parent_lt hcur hp
      have ih := isAncestorLoop_depth_le t hwf htwf a b fuel p hplt h
      have hrel := htwf.2 cur hcur p hplt hp
      have hlen := htwf.1 cur hcur
      calc dval t a ≤ dval t p := ih
        _ ≤ dval t p + lengthOf t cur := le_add_of_nonneg_right hlen
        _ = dval t cur := hrel.symm

/-- On a well-formed, time-consistent tree, a strict ancestor's depth is at
most the descendant's start time `depth - length`. -/
theorem is_ancestor_depth_le (t : FlatTree) (hwf : WF t) (htwf : TimeWF t)
    {a b : Nat} (h : is_ancestor t a b = true) :
    b < t.nodes.length ∧ ∃ pb, parentOf t b = some pb ∧ pb < t.nodes.length ∧
      dval t a ≤ dval t pb ∧ dval t b - lengthOf t b = dval t pb := by
  rw [is_ancestor] at h
  by_cases h1 : t.nodes.length ≤ a ∨ t.nodes.length ≤ b
  · rw [if_pos h1] at h; exact absurd h (by simp)
  rw [if_neg h1] at h
  by_cases h2 : a = b
  · rw [if_pos h2] at h; exact absurd h (by simp)
  rw [if_neg h2] at h
  push_neg at h1
  have hblt : b < t.nodes.length := h1.2
  cases hp : parentOf t b with
  | none => rw [hp] at h; simp [isAncestorLoop] at h
  | some pb =>
    rw [hp] at h
    have hpblt := hwf.parent_lt hblt hp
    have hle := isAncestorLoop_depth_le t hwf htwf a b t.nodes.length pb hpblt h
    have hrel := htwf.2 b hblt pb hpblt hp
    exact ⟨hblt, pb, rfl, hpblt, hle, by rw [hrel]; ring⟩

/-- Any member of any contemporaneity class satisfies the index-window
condition of the fold, and the class index is a real interval index. -/
theorem contemporaneity_mem_spec (t : FlatTree) (depths : List ℚ)
    (cont : List (List Nat)) (hcont : find_contemporaneity t depths = some cont)
    (j a : Nat) (ha : a ∈ cont.getD j []) :
    1 ≤ j ∧ j < depths.length ∧ a < t.nodes.length ∧
      find_closest_index depths (dval t a - lengthOf t a) < j ∧
      j ≤ find_closest_index depths (dval t a) := by
  rw [find_contemporaneity_eq] at hcont
  by_cases hall : t.nodes.all (fun node => node.depth.isSome) = true
  case neg => rw [if_neg hall] at hcont; exact absurd hcont (by simp)
  rw [if_pos hall] at hcont
  have hcval : cont = (List.range t.nodes.length).foldl (contStep t depths)
      (List.replicate depths.length []) := (Option.some.inj hcont).symm
  by_cases hjlen : j < depths.length
  case neg =>
    have hlen : cont.length = depths.length := by
      rw [hcval, foldl_contStep_length, List.length_replicate]
    rw [List.getD_eq_default _ _ (by omega)] at ha
    exact absurd ha (List.not_mem_nil a)
  by_cases hj0 : j = 0
  · subst hj0
    rw [hcval,
      foldl_contStep_getD t depths 0 _ _ (by rw [List.length_replicate]; exact hjlen),
      getD_replicate, List.nil_append, filter_below_zero] at ha
    exact absurd ha (List.not_mem_nil a)
  · rw [hcval,
      foldl_contStep_getD t depths j _ _ (by rw [List.length_replicate]; exact hjlen),
      getD_replicate, List.nil_append, List.mem_filter, List.mem_range,
      decide_eq_true_eq] at ha
    exact ⟨by omega, hjlen, ha.1, ha.2.1, ha.2.2⟩

/-- On a well-formed, time-consistent tree, a contemporaneity class computed
against the tree's own subdivision never relates two of its members by
ancestry: the classes themselves rule out ancestor pairs, with no draw-time
check needed. -/
theorem class_no_ancestor (t : FlatTree) (hwf : WF t) (htwf : TimeWF t)
    (cont : List (List Nat))
    (hcont : find_contemporaneity t t.make_subdivision = some cont)
    (j a b : Nat) (ha : a ∈ cont.getD j []) (hb : b ∈ cont.getD j []) :
    is_ancestor t a b = false := by
  cases hanc : is_ancestor t a b with
  | false => rfl
  | true =>
    exfalso
    have hall : t.nodes.all (fun node => node.depth.isSome) = true := by
      by_contra hno
      rw [find_contemporaneity_eq, if_neg hno] at hcont
      exact absurd hcont (by simp)
    have hallmem := List.all_eq_true.mp hall
    obtain ⟨hblt, pb, hpb, hpblt, hlepb, hstartb⟩ :=
      is_ancestor_depth_le t hwf htwf hanc
    obtain ⟨hj1, hjlen, halt, hsia, heia⟩ :=
      contemporaneity_mem_spec t _ cont hcont j a ha
    obtain ⟨-, -, -, hsib, heib⟩ := contemporaneity_mem_spec t _ cont hcont j b hb
    have hsorted := make_subdivision_pairwise t
    have hda : depthOf t a = some (dval t a) :=
      option_eq_some_getD _ 0 (hallmem (t.get a) (getD_mem_of_lt _ _ _ halt))
    have hdpb : depthOf t pb = some (dval t pb) :=
      option_eq_some_getD _ 0 (hallmem (t.get pb) (getD_mem_of_lt _ _ _ hpblt))
    have hmem_enda : dval t a ∈ t.make_subdivision := mem_make_subdivision t hda halt
    have hmem_startb : dval t b - lengthOf t b ∈ t.make_subdivision := by
      rw [hstartb]; exact mem_make_subdivision t hdpb hpblt
    obtain ⟨-, hlta, hgeta⟩ := find_closest_index_present _ hsorted _ hmem_enda
    obtain ⟨-, hltb, hgetb⟩ := find_closest_index_present _ hsorted _ hmem_startb
    have h1 : (t.make_subdivision).getD (j - 1) 0 < dval t a := by
      calc (t.make_subdivision).getD (j - 1) 0
          < (t.make_subdivision).getD
              (find_closest_index t.make_subdivision (dval t a)) 0 :=
            sorted_getD_lt _ hsorted (by omega) hlta
        _ = dval t a := hgeta
    have h2 : dval t b - lengthOf t b ≤ (t.make_subdivision).getD (j - 1) 0 := by
      calc dval t b - lengthOf t b
          = (t.make_subdivision).getD
              (find_closest_index t.make_subdivision (dval t b - lengthOf t b)) 0 :=
            hgetb.symm
        _ ≤ (t.make_subdivision).getD (j - 1) 0 :=
            sorted_getD_le _ hsorted (by omega) (by omega)
    have h3 : dval t a ≤ dval t b - lengthOf t b := by rw [hstartb]; exact hlepb
    linarith

theorem mapM_option_spec {α β : Type} (f : α → Option β) (da : α) (db : β) :
    ∀ (L : List α) (ws : List β), L.mapM f = some ws →
      ws.length = L.length ∧ ∀ i, i < L.length → f (L.getD i da) = some (ws.getD i db)
  | [], ws, h => by
    rw [List.mapM_nil] at h
    rw [Option.pure_def] at h
    have hws : ws = [] := (Option.some.inj h).symm
    subst hws
    exact ⟨rfl, fun i hi => absurd hi (by simp)⟩
  | a :: as, ws, h => by
    rw [List.mapM_cons] at h
    simp only [Option.bind_eq_bind, Option.pure_def] at h
    cases hfa : f a with
    | none => rw [hfa, Option.none_bind] at h; exact absurd h (by simp)
    | some b =>
      rw [hfa, Option.some_bind] at h
      cases hmas : as.mapM f with
      | none => rw [hmas, Option.none_bind] at h; exact absurd h (by simp)
      | some bs =>
        rw [hmas, Option.some_bind] at h
        have hws : ws = b :: bs := (Option.some.inj h).symm
        subst hws
        obtain ⟨hlen, hidx⟩ := mapM_option_spec f da db as bs hmas
        refine ⟨by simp [hlen], fun i hi => ?_⟩
        cases i with
        | zero => simpa using hfa
        | succ i => simpa using hidx i (by simpa using hi)

theorem WeightedIndex.new_spec (lw : List ℚ) (wi : WeightedIndex)
    (h : WeightedIndex.new lw = some wi) :
    wi.weights = lw ∧ (∀ x ∈ lw, 0 ≤ x) ∧ 0 < lw.sum := by
  rw [WeightedIndex.new] at h
  by_cases hg : lw ≠ [] ∧ (∀ x ∈ lw, 0 ≤ x) ∧ 0 < lw.sum
  · rw [if_pos hg] at h
    have hwi : wi = ⟨lw⟩ := (Option.some.inj h).symm
    subst hwi
    exact ⟨rfl, hg.2.1, hg.2.2⟩
  · rw [if_neg hg] at h; exact absurd h (by simp)

/-- Every weighted index stored by the precomputation of `main` belongs to a
class of size at least two and carries that class's rate table: non-empty,
non-negative, with positive total. -/
theorem buildWeightedIndices_spec (cont : List (List Nat)) (trates : List ℚ)
    (wis : List (Option WeightedIndex))
    (hw : buildWeightedIndices cont trates = some wis) :
    ∀ index w, wis.getD index none = some w →
      2 ≤ (cont.getD index []).length ∧
      w.weights.length = (cont.getD index []).length ∧
      (∀ x ∈ w.weights, 0 ≤ x) ∧ 0 < w.weights.sum := by
  intro index w hwidx
  obtain ⟨hlen, hspec⟩ := mapM_option_spec _ [] none cont wis hw
  by_cases hidx : index < cont.length
  case neg =>
    rw [List.getD_eq_default _ _ (by omega)] at hwidx
    exact absurd hwidx (by simp)
  have hf := hspec index hidx
  rw [hwidx] at hf
  by_cases h2 : 2 ≤ (cont.getD index []).length
  case neg =>
    rw [if_neg h2] at hf
    exact absurd (Option.some.inj hf) (by simp)
  rw [if_pos h2] at hf
  cases hnew : WeightedIndex.new ((cont.getD index []).map (fun i => trates.getD i 0)) with
  | none => rw [hnew] at hf; exact absurd hf (by simp)
  | some wi =>
    rw [hnew, Option.map_some'] at hf
    have hwiw : wi = w := Option.some.inj (Option.some.inj hf)
    subst hwiw
    obtain ⟨hweq, hnn, hpos⟩ := WeightedIndex.new_spec _ _ hnew
    refine ⟨h2, ?_, ?_, ?_⟩
    · rw [hweq, List.length_map]
    · rw [hweq]; exact hnn
    · rw [hweq]; exact hpos

theorem weightedPick_lt : ∀ (w : List ℚ) (x : ℚ), 0 ≤ x → x < w.sum →
    weightedPick x w < w.length
  | [], x, hx, hlt => by rw [List.sum_nil] at hlt; exact absurd hlt (not_lt.mpr hx)
  | a :: as, x, hx, hlt => by
    simp only [weightedPick]
    by_cases hxa : x < a
    · rw [if_pos hxa]; simp
    · rw [if_neg hxa]
      have h1 : 0 ≤ x - a := by linarith [not_lt.mp hxa]
      have h2 : x - a < as.sum := by rw [List.sum_cons] at hlt; linarith
      have := weightedPick_lt as (x - a) h1 h2
      simp only [List.length_cons]
      omega

theorem choose_from_cdf_rng (cdf depths : List ℚ) (g : Rng) (di : ℚ × Nat)
    (g' : Rng) (h : choose_from_cdf cdf depths g = some (di, g')) :
    g' = ⟨g.stream, g.pos + 1⟩ := by
  simp only [choose_from_cdf, Rng.next] at h
  rcases hbs : binary_search cdf (g.stream g.pos) with ⟨b, i⟩
  rw [hbs] at h
  cases b
  · dsimp only at h
    by_cases hi : i = cdf.length
    · rw [if_pos hi] at h
      exact absurd h (by simp)
    · rw [if_neg hi] at h
      dsimp only at h
      by_cases hi0 : i = 0
      · rw [if_pos hi0] at h; exact absurd h (by simp)
      · rw [if_neg hi0] at h
        exact (congrArg Prod.snd (Option.some.inj h)).symm
  · dsimp only at h
    by_cases hi0 : i = 0
    · rw [if_pos hi0] at h; exact absurd h (by simp)
    · rw [if_neg hi0] at h
      exact (congrArg Prod.snd (Option.some.inj h)).symm

/-- The donor position drawn by `random_pair_with_weights`. -/
def rpwDonorIdx (wi : WeightedIndex) (g : Rng) : Nat :=
  weightedPick (g.stream g.pos * wi.weights.sum) wi.weights

/-- The receiver position drawn by `random_pair_with_weights`: a uniform
draw over the remaining positions, shifted past the donor. -/
def rpwRecvIdx (cs : List Nat) (wi : WeightedIndex) (g : Rng) : Nat :=
  let ri := min (Int.toNat ⌊g.stream (g.pos + 1) * ((cs.length - 1 : Nat) : ℚ)⌋)
    (cs.length - 1 - 1)
  if rpwDonorIdx wi g ≤ ri then ri + 1 else ri

theorem random_pair_with_weights_eq (cs : List Nat) (wi : WeightedIndex) (g : Rng)
    (h2 : ¬ cs.length < 2) :
    random_pair_with_weights cs wi g =
      (some (cs.getD (rpwDonorIdx wi g) 0, cs.getD (rpwRecvIdx cs wi g) 0),
        ⟨g.stream, g.pos + 2⟩) := by
  simp only [random_pair_with_weights, WeightedIndex.sample, Rng.genRangeNat, Rng.next,
    rpwDonorIdx, rpwRecvIdx]
  rw [if_neg h2]

theorem rpwRecvIdx_lt (cs : List Nat) (wi : WeightedIndex) (g : Rng)
    (h2 : 2 ≤ cs.length) : rpwRecvIdx cs wi g < cs.length := by
  rw [rpwRecvIdx]
  have hri := min_le_right (Int.toNat ⌊g.stream (g.pos + 1) * ((cs.length - 1 : Nat) : ℚ)⌋)
    (cs.length - 1 - 1)
  split <;> omega

/-- The donor position drawn by `random_pair`. -/
def rpDonorIdx (cs : List Nat) (g : Rng) : Nat :=
  min (Int.toNat ⌊g.stream g.pos * (cs.length : ℚ)⌋) (cs.length - 1)

/-- The receiver position drawn by `random_pair`. -/
def rpRecvIdx (cs : List Nat) (g : Rng) : Nat :=
  let ri := min (Int.toNat ⌊g.stream (g.pos + 1) * ((cs.length - 1 : Nat) : ℚ)⌋)
    (cs.length - 1 - 1)
  if rpDonorIdx cs g ≤ ri then ri + 1 else ri

theorem random_pair_eq (cs : List Nat) (g : Rng) (h2 : ¬ cs.length < 2) :
    random_pair cs g =
      (some (cs.getD (rpDonorIdx cs g) 0, cs.getD (rpRecvIdx cs g) 0),
        ⟨g.stream, g.pos + 2⟩) := by
  simp only [random_pair, Rng.genRangeNat, Rng.next, rpDonorIdx, rpRecvIdx]
  rw [if_neg h2]

theorem rpDonorIdx_lt (cs : List Nat) (g : Rng) (h1 : 1 ≤ cs.length) :
    rpDonorIdx cs g < cs.length := by
  rw [rpDonorIdx]
  have := min_le_right (Int.toNat ⌊g.stream g.pos * (cs.length : ℚ)⌋) (cs.length - 1)
  omega

theorem rpRecvIdx_lt (cs : List Nat) (g : Rng) (h2 : 2 ≤ cs.length) :
    rpRecvIdx cs g < cs.length := by
  rw [rpRecvIdx]
  have hri := min_le_right (Int.toNat ⌊g.stream (g.pos + 1) * ((cs.length - 1 : Nat) : ℚ)⌋)
    (cs.length - 1 - 1)
  split <;> omega

theorem mem_sortInsertByTime (tr x : Nat × Nat × ℚ) :
    ∀ l, x ∈ sortInsertByTime tr l ↔ x = tr ∨ x ∈ l
  | [] => by simp [sortInsertByTime]
  | y :: ys => by
    simp only [sortInsertByTime]
    by_cases h : y.2.2 ≤ tr.2.2
    · rw [if_pos h]
      simp only [List.mem_cons, mem_sortInsertByTime tr x ys]
      tauto
    · rw [if_neg h]
      simp only [List.mem_cons]

theorem mem_sortByTime (x : Nat × Nat × ℚ) (l : List (Nat × Nat × ℚ)) :
    x ∈ sortByTime l ↔ x ∈ l := by
  induction l with
  | nil => simp [sortByTime]
  | cons y ys ih =>
    simp only [sortByTime, List.foldr_cons] at *
    rw [mem_sortInsertByTime]
    simp only [List.mem_cons, ih]

/-- Every pair emitted by the draw loop has both endpoints drawn from a
single contemporaneity class. -/
theorem generate_transfers_loop_mem (cont : List (List Nat))
    (wis : List (Option WeightedIndex)) (trates cdf depths : List ℚ) (usew : Bool)
    (hwis : buildWeightedIndices cont trates = some wis) :
    ∀ (n : Nat) (g : Rng), Rng.WellFormed g →
      ∀ trs gout,
        generate_transfers_loop cont wis cdf depths usew n g = some (trs, gout) →
        ∀ d r tm, (d, r, tm) ∈ trs →
          ∃ index, d ∈ cont.getD index [] ∧ r ∈ cont.getD index []
  | 0, g, _, trs, gout, hres, d, r, tm, htr => by
    simp only [generate_transfers_loop] at hres
    have htrs : trs = [] := (congrArg Prod.fst (Option.some.inj hres)).symm
    subst htrs
    exact absurd htr (List.not_mem_nil _)
  | n + 1, g, hg, trs, gout, hres, d, r, tm, htr => by
    simp only [generate_transfers_loop, Option.bind_eq_bind] at hres
    cases hc : choose_from_cdf cdf depths g with
    | none => rw [hc, Option.none_bind] at hres; exact absurd hres (by simp)
    | some pr1 =>
      obtain ⟨⟨depth, index⟩, g1⟩ := pr1
      rw [hc, Option.some_bind] at hres
      have hg1 : g1 = ⟨g.stream, g.pos + 1⟩ := choose_from_cdf_rng _ _ _ _ _ hc
      cases hwg : wis.getD index none with
      | none => rw [hwg, Option.none_bind] at hres; exact absurd hres (by simp)
      | some weighted =>
        rw [hwg, Option.some_bind] at hres
        obtain ⟨h2le, hwlen, hwnn, hwpos⟩ :=
          buildWeightedIndices_spec cont trates wis hwis index weighted hwg
        have h2 : ¬ (cont.getD index []).length < 2 := not_lt.mpr h2le
        have hg1wf : Rng.WellFormed g1 := by
          rw [hg1]; exact fun k => hg k
        cases usew
        · rw [if_neg (by simp), random_pair_eq _ _ h2] at hres
          dsimp only at hres
          cases hrest : generate_transfers_loop cont wis cdf depths false n
              ⟨g1.stream, g1.pos + 2⟩ with
          | none => rw [hrest, Option.none_bind] at hres; exact absurd hres (by simp)
          | some pr2 =>
            obtain ⟨rest, g3⟩ := pr2
            rw [hrest, Option.some_bind] at hres
            have htrs : trs = [(cont.getD index [] |>.getD (rpDonorIdx _ g1) 0,
                cont.getD index [] |>.getD (rpRecvIdx _ g1) 0, depth)] ++ rest :=
              (congrArg Prod.fst (Option.some.inj hres)).symm
            subst htrs
            rcases List.mem_append.mp htr with hh | ht
            · rw [List.mem_singleton] at hh
              obtain ⟨rfl, rfl, rfl⟩ := Prod.mk.injEq _ _ _ _ ▸ hh
              exact ⟨index,
                getD_mem_of_lt _ _ _ (rpDonorIdx_lt _ g1 (by omega)),
                getD_mem_of_lt _ _ _ (rpRecvIdx_lt _ g1 h2le)⟩
            · exact generate_transfers_loop_mem cont wis trates cdf depths false hwis n
                ⟨g1.stream, g1.pos + 2⟩ (fun k => hg1wf k) rest g3 hrest d r tm ht
        · rw [if_pos rfl, random_pair_with_weights_eq _ _ _ h2] at hres
          dsimp only at hres
          cases hrest : generate_transfers_loop cont wis cdf depths true n
              ⟨g1.stream, g1.pos + 2⟩ with
          | none => rw [hrest, Option.none_bind] at hres; exact absurd hres (by simp)
          | some pr2 =>
            obtain ⟨rest, g3⟩ := pr2
            rw [hrest, Option.some_bind] at hres
            have htrs : trs = [(cont.getD index [] |>.getD (rpwDonorIdx weighted g1) 0,
                cont.getD index [] |>.getD (rpwRecvIdx _ weighted g1) 0, depth)] ++ rest :=
              (congrArg Prod.fst (Option.some.inj hres)).symm
            subst htrs
            rcases List.mem_append.mp htr with hh | ht
            · rw [List.mem_singleton] at hh
              obtain ⟨rfl, rfl, rfl⟩ := Prod.mk.injEq _ _ _ _ ▸ hh
              refine ⟨index, getD_mem_of_lt _ _ _ ?_,
                getD_mem_of_lt _ _ _ (rpwRecvIdx_lt _ weighted g1 h2le)⟩
              rw [← hwlen]
              refine weightedPick_lt _ _ ?_ ?_
              · exact mul_nonneg (hg1wf g1.pos).1 hwpos.le
              · calc g1.stream g1.pos * weighted.weights.sum
                    < 1 * weighted.weights.sum :=
                      mul_lt_mul_of_pos_right (hg1wf g1.pos).2 hwpos
                  _ = weighted.weights.sum := one_mul _
            · exact generate_transfers_loop_mem cont wis trates cdf depths true hwis n
                ⟨g1.stream, g1.pos + 2⟩ (fun k => hg1wf k) rest g3 hrest d r tm ht

/-- Claim C3 (corrected): the sampler performs no draw-time ancestor check,
but the guarantee still holds end to end when the contemporaneity classes
come from the tree itself: on a well-formed, time-consistent tree, both
endpoints of every emitted transfer are drawn from one contemporaneity class
of that tree, and such a class never contains an ancestor pair, so no
emitted transfer has its donor an ancestor of its recipient. -/
theorem generate_transfers_no_ancestor_pair (t : FlatTree)
    (cont : List (List Nat)) (wis : List (Option WeightedIndex))
    (trates cdf depths : List ℚ) (usew : Bool) (n : Nat) (g gout : Rng)
    (trs : List (Nat × Nat × ℚ)) (d r : Nat) (tm : ℚ)
    (hwf : WF t) (htwf : TimeWF t)
    (hcont : find_contemporaneity t t.make_subdivision = some cont)
    (hwis : buildWeightedIndices cont trates = some wis)
    (hg : Rng.WellFormed g)
    (hgen : generate_transfers n cont wis cdf depths g usew = some (trs, gout))
    (htr : (d, r, tm) ∈ trs) :
    is_ancestor t d r = false := by
  rw [generate_transfers] at hgen
  cases hloop : generate_transfers_loop cont wis cdf depths usew n g with
  | none => rw [hloop] at hgen; exact absurd hgen (by simp)
  | some pr =>
    obtain ⟨trs0, g3⟩ := pr
    rw [hloop, Option.map_some'] at hgen
    have htrs : trs = sortByTime trs0 :=
      (congrArg Prod.fst (Option.some.inj hgen)).symm
    subst htrs
    rw [mem_sortByTime] at htr
    obtain ⟨index, hd, hr⟩ := generate_transfers_loop_mem cont wis trates cdf depths
      usew hwis n g hg trs0 g3 hloop d r tm htr
    exact class_no_ancestor t hwf htwf cont hcont index d r hd hr

/-- A three-node cherry: node `1` is the root at depth `0` with children `0`
and `2`, both leaves at depth `1` with branch length `1`. -/
def ancTree : FlatTree :=
  ⟨[⟨"L", none, none, some 1, some 1, 1⟩,
    ⟨"R", some 0, some 2, none, some 0, 0⟩,
    ⟨"L2", none, none, some 1, some 1, 1⟩], 1⟩

/-- The sampler has no ancestor check of its own: handed a contemporaneity
class holding a node and its parent, `generate_transfers` emits the pair.
On `ancTree`, node `1` is the root and the parent of node `0`, yet the
transfer `(1, 0, 1/2)` is produced. -/
theorem generate_transfers_emits_ancestor_pair :
    ∃ trs g', generate_transfers 1 [[], [0, 1]] [none, some ⟨[1, 1]⟩] [0, 1] [0, 1]
        ⟨fun _ => 1/2, 0⟩ true = some (trs, g') ∧
      (1, 0, (1/2 : ℚ)) ∈ trs ∧
      is_ancestor ancTree 1 0 = true := by
  refine ⟨[(1, 0, 1/2)], ⟨fun _ => 1/2, 3⟩, ?_, by simp, by decide⟩
  have h2 : ¬ ([0, 1] : List Nat).length < 2 := by decide
  rw [generate_transfers]
  rw [show generate_transfers_loop [[], [0, 1]] [none, some ⟨[1, 1]⟩] [0, 1] [0, 1]
      true 1 ⟨fun _ => 1/2, 0⟩ =
      some ([(1, 0, 1/2)], ⟨fun _ => 1/2, 3⟩) from ?_]
  · rfl
  · simp only [generate_transfers_loop, Option.bind_eq_bind]
    rw [show choose_from_cdf [0, 1] [0, 1] ⟨fun _ => 1/2, 0⟩ =
        some ((1/2, 1), ⟨fun _ => 1/2, 1⟩) from ?_]
    · rw [Option.some_bind]
      dsimp only
      rw [show (([none, some ⟨[1, 1]⟩] : List (Option WeightedIndex)).getD 1 none) =
          some ⟨[1, 1]⟩ from rfl, Option.some_bind]
      rw [show ([[], [0, 1]] : List (List Nat)).getD 1 [] = [0, 1] from rfl,
        if_pos trivial, random_pair_with_weights_eq _ _ _ h2]
      dsimp only
      rw [Option.some_bind]
      have hdi : rpwDonorIdx ⟨[1, 1]⟩ ⟨fun _ => 1/2, 1⟩ = 1 := by
        rw [rpwDonorIdx]
        norm_num [weightedPick]
      have hri : rpwRecvIdx [0, 1] ⟨[1, 1]⟩ ⟨fun _ => 1/2, 1⟩ = 0 := by
        rw [rpwRecvIdx, hdi]
        norm_num
      rw [hdi, hri]
      rfl
    · simp only [choose_from_cdf, Rng.next]
      rw [show binary_search [0, 1] ((1 : ℚ)/2) = (false, 1) from ?_]
      · norm_num
      · rw [binary_search]
        norm_num [List.countP_cons, List.countP_nil]

/-- Witness for claim C3 at a concrete input. -/
theorem generate_transfers_no_ancestor_pair_witness :
    (WF ancTree ∧ TimeWF ancTree ∧
      find_contemporaneity ancTree ancTree.make_subdivision = some [[], [0, 2]] ∧
      buildWeightedIndices [[], [0, 2]] [1, 1, 1] = some [none, some ⟨[1, 1]⟩] ∧
      Rng.WellFormed ⟨fun _ => 1/2, 0⟩ ∧
      generate_transfers 1 [[], [0, 2]] [none, some ⟨[1, 1]⟩] [0, 1] [0, 1]
        ⟨fun _ => 1/2, 0⟩ true = some ([(2, 0, 1/2)], ⟨fun _ => 1/2, 3⟩) ∧
      ((2 : Nat), (0 : Nat), (1/2 : ℚ)) ∈ [((2 : Nat), (0 : Nat), (1/2 : ℚ))]) ∧
    is_ancestor ancTree 2 0 = false := by
  have hwf : WF ancTree := by decide
  have htwf : TimeWF ancTree := by
    constructor
    · intro i hi
      have hi3 : i < 3 := by simpa [ancTree] using hi
      interval_cases i <;> decide
    · intro i hi p hp hpar
      have hi3 : i < 3 := by simpa [ancTree] using hi
      interval_cases i <;>
        first
          | exact Option.noConfusion hpar
          | (injection hpar with h
             subst h
             norm_num [dval, depthOf, lengthOf, FlatTree.get, ancTree,
               List.getD_cons_zero, List.getD_cons_succ])
  have hsub : ancTree.make_subdivision = [0, 1] := by decide
  have hcont : find_contemporaneity ancTree ancTree.make_subdivision =
      some [[], [0, 2]] := by
    rw [hsub, find_contemporaneity_eq, if_pos (by decide)]
    norm_num [ancTree, contStep, mapWithIndex, find_closest_index, binary_search,
      FlatTree.get, List.range_succ, List.countP_cons, List.countP_nil]
  have hnew : WeightedIndex.new (([0, 2] : List Nat).map
      (fun i => ([1, 1, 1] : List ℚ).getD i 0)) = some ⟨[1, 1]⟩ := by
    have hmap : ([0, 2] : List Nat).map (fun i => ([1, 1, 1] : List ℚ).getD i 0) =
        ([1, 1] : List ℚ) := rfl
    rw [hmap, WeightedIndex.new]
    rw [if_pos (show ([1, 1] : List ℚ) ≠ [] ∧ (∀ x ∈ ([1, 1] : List ℚ), 0 ≤ x) ∧
        0 < ([1, 1] : List ℚ).sum from ⟨by decide, by decide, by norm_num⟩)]
  have hwis : buildWeightedIndices [[], [0, 2]] [1, 1, 1] =
      some [none, some ⟨[1, 1]⟩] := by
    rw [buildWeightedIndices, List.mapM_cons, List.mapM_cons, List.mapM_nil]
    simp only [Option.bind_eq_bind, Option.pure_def]
    rw [if_neg (by decide), Option.some_bind, if_pos (by decide), hnew]
    rfl
  have hg : Rng.WellFormed ⟨fun _ => 1/2, 0⟩ := fun k => by norm_num
  have hgen : generate_transfers 1 [[], [0, 2]] [none, some ⟨[1, 1]⟩] [0, 1] [0, 1]
      ⟨fun _ => 1/2, 0⟩ true = some ([(2, 0, 1/2)], ⟨fun _ => 1/2, 3⟩) := by
    have h2 : ¬ ([0, 2] : List Nat).length < 2 := by decide
    rw [generate_transfers]
    rw [show generate_transfers_loop [[], [0, 2]] [none, some ⟨[1, 1]⟩] [0, 1] [0, 1]
        true 1 ⟨fun _ => 1/2, 0⟩ =
        some ([(2, 0, 1/2)], ⟨fun _ => 1/2, 3⟩) from ?_]
    · rfl
    · simp only [generate_transfers_loop, Option.bind_eq_bind]
      rw [show choose_from_cdf [0, 1] [0, 1] ⟨fun _ => 1/2, 0⟩ =
          some ((1/2, 1), ⟨fun _ => 1/2, 1⟩) from ?_]
      · rw [Option.some_bind]
        dsimp only
        rw [show (([none, some ⟨[1, 1]⟩] : List (Option WeightedIndex)).getD 1 none) =
            some ⟨[1, 1]⟩ from rfl, Option.some_bind]
        rw [show ([[], [0, 2]] : List (List Nat)).getD 1 [] = [0, 2] from rfl,
          if_pos trivial, random_pair_with_weights_eq _ _ _ h2]
        dsimp only
        rw [Option.some_bind]
        have hdi : rpwDonorIdx ⟨[1, 1]⟩ ⟨fun _ => 1/2, 1⟩ = 1 := by
          rw [rpwDonorIdx]
          norm_num [weightedPick]
        have hri : rpwRecvIdx [0, 2] ⟨[1, 1]⟩ ⟨fun _ => 1/2, 1⟩ = 0 := by
          rw [rpwRecvIdx, hdi]
          norm_num
        rw [hdi, hri]
        rfl
      · simp only [choose_from_cdf, Rng.next]
        rw [show binary_search [0, 1] ((1 : ℚ)/2) = (false, 1) from ?_]
        · norm_num
        · rw [binary_search]
          norm_num [List.countP_cons, List.countP_nil]
  exact ⟨⟨hwf, htwf, hcont, hwis, hg, hgen, by simp⟩,
    generate_transfers_no_ancestor_pair ancTree [[], [0, 2]] [none, some ⟨[1, 1]⟩]
      [1, 1, 1] [0, 1] [0, 1] true 1 ⟨fun _ => 1/2, 0⟩ ⟨fun _ => 1/2, 3⟩
      [(2, 0, 1/2)] 2 0 (1/2) hwf htwf hcont hwis hg hgen (by simp)⟩

/-- Claim C9: reproducibility as a two-run property — two runs of the
sampling-and-surgery pipeline with the same RNG stream and position, the
same input tree, the same transfer rates, the same transfer count and the
same sampling mode produce the identical transfer sequence and the
identical gene tree. -/
theorem pipeline_two_run_deterministic (t1 t2 : FlatTree) (r1 r2 : List ℚ)
    (n1 n2 : Nat) (g1 g2 : Rng) (u1 u2 : Bool)
    (ht : t1 = t2) (hr : r1 = r2) (hn : n1 = n2) (hg : g1 = g2) (hu : u1 = u2) :
    run_gene_pipeline t1 r1 n1 g1 u1 = run_gene_pipeline t2 r2 n2 g2 u2 := by
  subst ht hr hn hg hu
  rfl

/-- Witness for claim C9 at a concrete input. -/
theorem pipeline_two_run_deterministic_witness :
    (ancTree = ancTree ∧ ([1, 1, 1] : List ℚ) = [1, 1, 1] ∧ (1 : Nat) = 1 ∧
      (⟨fun _ => 1/2, 0⟩ : Rng) = ⟨fun _ => 1/2, 0⟩ ∧ true = true) ∧
    run_gene_pipeline ancTree [1, 1, 1] 1 ⟨fun _ => 1/2, 0⟩ true =
      run_gene_pipeline ancTree [1, 1, 1] 1 ⟨fun _ => 1/2, 0⟩ true :=
  ⟨⟨rfl, rfl, rfl, rfl, rfl⟩,
    pipeline_two_run_deterministic ancTree ancTree [1, 1, 1] [1, 1, 1] 1 1
      ⟨fun _ => 1/2, 0⟩ ⟨fun _ => 1/2, 0⟩ true true rfl rfl rfl rfl rfl⟩

end Rustree
